import Mathlib

/-!
Verification of the obsidian-cli index/search/enrich core.

This file shallowly embeds the Go code of the repository
(`internal/index/store.go`, `internal/index/embeddings.go`,
`internal/cmd/index.go`, `internal/cmd/enrich.go`) in Lean 4 and proves
properties of the embedding.

Modelling conventions, stated once here:
* Go `float32`/`float64` arithmetic is idealised as exact rational
  arithmetic (`ℚ`).  The number-level algorithms (dot products, Newton's
  square-root iteration, reciprocal-rank fusion) are translated
  operation-for-operation; only rounding is idealised away.
* Go strings are Lean `String`s; the string helpers used by the code
  (`strings.Split(s, ", ")`, `strings.TrimSpace`, `strings.ToLower`,
  `strings.TrimSuffix(name, ".md")`, `filepath.Base`, the fragment cut at
  the first `'#'`) are implemented structurally on `String.data` so that
  every definition evaluates by kernel reduction.  `ToLower` is modelled
  on ASCII letters, which is all the analysed code paths rely on.
* SQLite is modelled as a list of rows keyed by `path`: `SELECT` order is
  list order, `INSERT ... ON CONFLICT(path) DO UPDATE` replaces in place
  or appends, `DELETE` filters.  Go map iteration order (used only to
  emit the fused results of SearchHybrid) is modelled as key insertion
  order; the properties proved about the fused output hold for any
  iteration order.
* Network I/O (the Gemini HTTP calls, FTS5 keyword queries) is external
  to the analysed algorithms and is passed in as an oracle parameter.
-/

/-! ### String helpers (Go `strings`/`path/filepath` equivalents) -/

/-- ASCII lower-casing of one character, as `strings.ToLower` does for the
ASCII range (the only range exercised by the indexed fields here). -/
def lowerChar (c : Char) : Char :=
  if 'A' ≤ c ∧ c ≤ 'Z' then Char.ofNat (c.toNat + 32) else c

/-- Lower-case a character list. -/
def lowerList (cs : List Char) : List Char := cs.map lowerChar

/-- Go `strings.ToLower` (ASCII fragment). -/
def lowerStr (s : String) : String := String.mk (lowerList s.data)

/-- Go `strings.TrimSpace` on a character list (ASCII whitespace). -/
def trimSpaces (cs : List Char) : List Char :=
  ((cs.dropWhile Char.isWhitespace).reverse.dropWhile Char.isWhitespace).reverse

/-- Go `strings.Split(s, ", ")` on a character list: split at each
leftmost non-overlapping occurrence of the two-character separator. -/
def splitCommaSpace : List Char → List (List Char)
  | [] => [[]]
  | ',' :: ' ' :: rest => [] :: splitCommaSpace rest
  | c :: rest =>
    match splitCommaSpace rest with
    | [] => [[c]]
    | g :: gs => (c :: g) :: gs

/-- Split a character list at `'/'` (for `filepath.Base`). -/
def splitSlash : List Char → List (List Char)
  | [] => [[]]
  | '/' :: rest => [] :: splitSlash rest
  | c :: rest =>
    match splitSlash rest with
    | [] => [[c]]
    | g :: gs => (c :: g) :: gs

/-- Go `filepath.Base` restricted to slash-separated note paths without a
trailing slash (the shape produced by the vault scanner): the last `/`
separated component. -/
def baseName (s : String) : String :=
  String.mk ((splitSlash s.data).getLastD s.data)

/-- Go `strings.TrimSuffix(s, ".md")`. -/
def trimSuffixMd (s : String) : String :=
  match s.data.reverse with
  | 'd' :: 'm' :: '.' :: rest => String.mk rest.reverse
  | _ => s

/-- Cut a wikilink at the first `'#'`, as
`if idx := strings.Index(link, "#"); idx >= 0 { link = link[:idx] }`. -/
def stripFragment (cs : List Char) : List Char := cs.takeWhile (· ≠ '#')

/-- Go `strings.Join(parts, sep)`. -/
def joinWith (sep : List Char) (ss : List String) : String :=
  String.mk (((ss.map (·.data)).intersperse sep).flatten)

/-! ### Exact-arithmetic translation of the numeric kernel of `store.go` -/

/-- The summation loop shared by `cosineSimilarity`'s dot product and norm
accumulators (`for i := range a { acc += a[i]*b[i] }`). -/
def dot32 : List ℚ → List ℚ → ℚ
  | x :: xs, y :: ys => x * y + dot32 xs ys
  | _, _ => 0

/-- The ten Newton iterations of `sqrt32` (`z = (z + x/z) / 2`). -/
def newtonIter : ℕ → ℚ → ℚ → ℚ
  | 0, _, z => z
  | n + 1, x, z => newtonIter n x ((z + x / z) / 2)

/-- `sqrt32` from `store.go`: Newton's method from `x/2`, ten iterations,
`0` for non-positive input. -/
def sqrt32 (x : ℚ) : ℚ :=
  if x ≤ 0 then 0 else newtonIter 10 x (x / 2)

/-- `cosineSimilarity` from `store.go`: `0` on length mismatch or empty
input, `0` on a zero norm accumulator, otherwise
`dot / (sqrt32 normA * sqrt32 normB)`. -/
def cosineSimilarity (a b : List ℚ) : ℚ :=
  if a.length ≠ b.length ∨ a.length = 0 then 0
  else if dot32 a a = 0 ∨ dot32 b b = 0 then 0
  else dot32 a b / (sqrt32 (dot32 a a) * sqrt32 (dot32 b b))

/-- Modelled from the spec: the exported `index.CosineSimilarity` used by
`internal/cmd/enrich.go` is not under `src/` (only its callers and tests
are).  The spec defines it as `dot(a,b) / (‖a‖·‖b‖)`, returning exactly 0
when either vector has zero norm or when dimensions mismatch; this is the
contract implemented by the in-repo `cosineSimilarity` of `store.go`, so
the exported function is modelled by the same algorithm. -/
def CosineSimilarity (a b : List ℚ) : ℚ := cosineSimilarity a b

/-! ### Search data model and result sorting -/

/-- `SearchResult` from `store.go` (scores idealised as `ℚ`). -/
structure SearchResult where
  path : String
  title : String
  score : ℚ
  snippet : String
deriving DecidableEq

/-- One step of the in-place insertion sort of `sortResults` /
`findLinkSuggestions`: the new element bubbles left past strictly smaller
keys and stops at the first key `≥` its own (stable, descending). -/
def insDescBy (score : α → ℚ) (r : α) : List α → List α
  | [] => [r]
  | x :: xs => if score x < score r then r :: x :: xs else x :: insDescBy score r xs

/-- The insertion sort used by `sortResults` (`store.go`) and by the
suggestion sort in `findLinkSuggestions` (`enrich.go`): elements are taken
left to right and inserted into the sorted prefix. -/
def sortDescBy (score : α → ℚ) (l : List α) : List α :=
  l.foldl (fun acc x => insDescBy score x acc) []

/-- `sortResults` from `store.go`: sort search results by score descending. -/
def sortResults (results : List SearchResult) : List SearchResult :=
  sortDescBy (·.score) results

/-- Descending-by-key sortedness. -/
def sortedDescBy (score : α → ℚ) (l : List α) : Prop :=
  List.Pairwise (fun a b => score b ≤ score a) l

/-! ### Embedding blob encoding (`encodeEmbedding` / `decodeEmbedding`)

A `float32` is represented by its 32-bit pattern (a natural number below
`2^32`); Go's `math.Float32bits` / `math.Float32frombits` are mutually
inverse bijections between values and patterns (NaN payloads included),
so losslessness at the pattern level is losslessness at the value level.
Bytes are natural numbers below 256. -/

/-- The four little-endian bytes of one 32-bit pattern
(`binary.LittleEndian.PutUint32`). -/
def byteLE (w : ℕ) : List ℕ :=
  [w % 256, w / 256 % 256, w / 65536 % 256, w / 16777216 % 256]

/-- `encodeEmbedding` from `store.go`: concatenate the little-endian bytes
of each element. -/
def encodeEmbedding (v : List ℕ) : List ℕ := (v.map byteLE).flatten

/-- The reassembly loop of `decodeEmbedding`
(`binary.LittleEndian.Uint32(b[i*4:])` for each word). -/
def decodeWords : List ℕ → List ℕ
  | b0 :: b1 :: b2 :: b3 :: rest =>
    (b0 + 256 * b1 + 65536 * b2 + 16777216 * b3) :: decodeWords rest
  | _ => []

/-- `decodeEmbedding` from `store.go`: `nil` ("no embedding") when the
blob is empty or its length is not a multiple of 4, otherwise the decoded
words. -/
def decodeEmbedding (b : List ℕ) : Option (List ℕ) :=
  if b.length = 0 ∨ b.length % 4 ≠ 0 then none
  else some (decodeWords b)

/-! ### Note rows and the semantic search of `store.go`

`NoteRow.Embedding` is Go's `[]float32`: `none` models the `nil` slice
(`NULL` blob).  A stored empty-but-non-nil slice encodes to an empty blob,
which `decodeEmbedding` maps back to `nil`; the `emb = []` test below
mirrors that decode-failure path of `SearchSemantic` at the value level
(arbitrary corrupt blobs live at the byte level, see `decodeEmbedding`). -/

/-- `NoteRow` from `store.go` (tags comma-separated, headings
newline-separated, wikilinks comma-separated, as in the schema). -/
structure NoteRow where
  path : String
  title : String
  tags : String
  headings : String
  wikilinks : String
  body : String
  modTime : Int
  embedding : Option (List ℚ)
deriving DecidableEq

/-- The per-row body of `SearchSemantic`'s scan loop: skip a `NULL`
embedding, skip an undecodable blob, compute the cosine score against the
query, and keep the row only on a strictly positive score. -/
def semanticHit (queryEmbedding : List ℚ) (n : NoteRow) : Option SearchResult :=
  match n.embedding with
  | none => none
  | some emb =>
    if emb = [] then none
    else if 0 < cosineSimilarity queryEmbedding emb then
      some ⟨n.path, n.title, cosineSimilarity queryEmbedding emb, ""⟩
    else none

/-- The unsorted, untruncated hit list accumulated by `SearchSemantic`. -/
def semanticCandidates (notes : List NoteRow) (queryEmbedding : List ℚ) : List SearchResult :=
  notes.filterMap (semanticHit queryEmbedding)

/-- `SearchSemantic` from `store.go`: scan, score, sort descending,
truncate to `limit`. -/
def searchSemantic (notes : List NoteRow) (queryEmbedding : List ℚ) (limit : ℕ) :
    List SearchResult :=
  (sortResults (semanticCandidates notes queryEmbedding)).take limit

/-! ### `SearchHybrid`: reciprocal rank fusion (`store.go`)

The Go code accumulates `scores`, `titles` and `snippets` maps and then
emits one result per `scores` key.  Go map iteration order is
unspecified; the model fixes key insertion order (every property proved
below is independent of that choice, as the emitted list is sorted). -/

/-- Lookup in an association-list model of a Go `map[string]float64`
(missing key reads as the zero value). -/
def lookupQ (m : List (String × ℚ)) (p : String) : ℚ :=
  ((m.find? (·.1 = p)).map (·.2)).getD 0

/-- Lookup in an association-list model of a Go `map[string]string`
(missing key reads as `""`). -/
def lookupS (m : List (String × String)) (p : String) : String :=
  ((m.find? (·.1 = p)).map (·.2)).getD ""

/-- Go `m[p] += v` on the association-list map model: add to the entry
with key `p` if present, else append a fresh entry with value `v`. -/
def updAdd : List (String × ℚ) → String → ℚ → List (String × ℚ)
  | [], p, v => [(p, v)]
  | e :: rest, p, v => if e.1 = p then (e.1, e.2 + v) :: rest else e :: updAdd rest p v

/-- Go `m[p] = v` on the association-list map model. -/
def updSet : List (String × String) → String → String → List (String × String)
  | [], p, v => [(p, v)]
  | e :: rest, p, v => if e.1 = p then (e.1, v) :: rest else e :: updSet rest p v

/-- The three maps accumulated by `SearchHybrid`. -/
structure FuseState where
  scores : List (String × ℚ)
  titles : List (String × String)
  snippets : List (String × String)

/-- The keyword-pool loop of `SearchHybrid`: at 1-based rank `rank`, add
`1/(60+rank)` to the path's score and record title and snippet. -/
def addKeywordPool : FuseState → List SearchResult → ℕ → FuseState
  | st, [], _ => st
  | st, r :: rest, rank =>
    addKeywordPool
      { scores := updAdd st.scores r.path (1 / (60 + (rank : ℚ)))
        titles := updSet st.titles r.path r.title
        snippets := updSet st.snippets r.path r.snippet } rest (rank + 1)

/-- The semantic-pool loop of `SearchHybrid`: add the rank contribution
and fill in the title only if it is still empty. -/
def addSemanticPool : FuseState → List SearchResult → ℕ → FuseState
  | st, [], _ => st
  | st, r :: rest, rank =>
    addSemanticPool
      { scores := updAdd st.scores r.path (1 / (60 + (rank : ℚ)))
        titles := if lookupS st.titles r.path = "" then updSet st.titles r.path r.title
                  else st.titles
        snippets := st.snippets } rest (rank + 1)

/-- The combined, unsorted fused result list (`for path, score := range
scores`, emitted in key insertion order). -/
def fuseCandidates (keywordResults semanticResults : List SearchResult) : List SearchResult :=
  let st := addSemanticPool (addKeywordPool ⟨[], [], []⟩ keywordResults 1) semanticResults 1
  st.scores.map (fun e =>
    { path := e.1, title := lookupS st.titles e.1, score := e.2
      snippet := lookupS st.snippets e.1 })

/-- The fusion-and-truncate tail of `SearchHybrid`. -/
def fuseRRF (keywordResults semanticResults : List SearchResult) (limit : ℕ) :
    List SearchResult :=
  (sortResults (fuseCandidates keywordResults semanticResults)).take limit

/-- `SearchHybrid` from `store.go`.  The FTS5 keyword search is external
SQL and is passed as the oracle `searchKeyword`; the semantic pool is the
in-repo `SearchSemantic`.  Both pools are requested with `limit*2`. -/
def SearchHybrid (searchKeyword : ℕ → List SearchResult) (notes : List NoteRow)
    (queryEmbedding : List ℚ) (limit : ℕ) : List SearchResult :=
  fuseRRF (searchKeyword (limit * 2)) (searchSemantic notes queryEmbedding (limit * 2)) limit

/-- The spec's description of a pool's reciprocal-rank-fusion
contribution for a path: the sum of `1/(60+r)` over the occurrences of
the path in the pool, `r` its 1-based rank (`rank` is the rank of the
list head). -/
def rrfContrib : List SearchResult → ℕ → String → ℚ
  | [], _, _ => 0
  | r :: rest, rank, p =>
    (if r.path = p then 1 / (60 + (rank : ℚ)) else 0) + rrfContrib rest (rank + 1) p

/-! ### Similarity analyzer (`internal/cmd/enrich.go`) -/

/-- `LinkSuggestion` from `enrich.go` (`from`/`to` renamed: `from` is a
Lean keyword). -/
structure LinkSuggestion where
  fromPath : String
  toPath : String
  similarity : ℚ
deriving DecidableEq

/-- The per-note entry of the `existingLinks` map of
`findLinkSuggestions`: the note's wikilinks split on `", "`, trimmed and
lower-cased.  (The Go code precomputes one map over all notes keyed by
path; as each note's entry depends only on that note, the map read
`existingLinks[n.Path]` is this per-note value.) -/
def linkSet (n : NoteRow) : List String :=
  if n.wikilinks = "" then []
  else (splitCommaSpace n.wikilinks.data).map (fun l => String.mk (lowerList (trimSpaces l)))

/-- Filename-derived name: `strings.TrimSuffix(filepath.Base(path), ".md")`. -/
def noteName (n : NoteRow) : String := trimSuffixMd (baseName n.path)

/-- The "already linked in either direction" test of `findLinkSuggestions`:
either note's link set contains the other's lower-cased filename-derived
name. -/
def alreadyLinked (a b : NoteRow) : Bool :=
  (linkSet a).contains (lowerStr (noteName b)) || (linkSet b).contains (lowerStr (noteName a))

/-- Read of the `counts` map (`map[string]int`, missing key = 0). -/
def countOf (counts : List (String × ℕ)) (p : String) : ℕ :=
  ((counts.find? (·.1 = p)).map (·.2)).getD 0

/-- Go `counts[p]++` on the association-list map model. -/
def bumpCount : List (String × ℕ) → String → List (String × ℕ)
  | [], p => [(p, 1)]
  | e :: rest, p => if e.1 = p then (e.1, e.2 + 1) :: rest else e :: bumpCount rest p

/-- `threshold = 0.7` from `findLinkSuggestions`. -/
def linkThreshold : ℚ := 7 / 10

/-- `maxPerNote = 5` from `findLinkSuggestions`. -/
def maxPerNote : ℕ := 5

/-- The inner (`j`) loop of `findLinkSuggestions`, verbatim from the
source: skip a missing embedding; skip early when both notes are at the
cap; skip below-threshold similarity; skip an existing link; accept when
at least one side is below the cap, appending the suggestion and bumping
both counters. -/
def lsInner (ni : NoteRow) (ei : List ℚ) :
    List NoteRow → List (String × ℕ) → List LinkSuggestion →
    List (String × ℕ) × List LinkSuggestion
  | [], counts, acc => (counts, acc)
  | nj :: rest, counts, acc =>
    match nj.embedding with
    | none => lsInner ni ei rest counts acc
    | some ej =>
      if maxPerNote ≤ countOf counts ni.path ∧ maxPerNote ≤ countOf counts nj.path then
        lsInner ni ei rest counts acc
      else
        let sim := CosineSimilarity ei ej
        if sim < linkThreshold then lsInner ni ei rest counts acc
        else if alreadyLinked ni nj then lsInner ni ei rest counts acc
        else if countOf counts ni.path < maxPerNote ∨ countOf counts nj.path < maxPerNote then
          lsInner ni ei rest (bumpCount (bumpCount counts ni.path) nj.path)
            (acc ++ [⟨ni.path, nj.path, sim⟩])
        else lsInner ni ei rest counts acc

/-- The outer (`i`) loop of `findLinkSuggestions` over all `i < j` pairs. -/
def lsOuter : List NoteRow → List (String × ℕ) → List LinkSuggestion → List LinkSuggestion
  | [], _, acc => acc
  | n :: rest, counts, acc =>
    match n.embedding with
    | none => lsOuter rest counts acc
    | some ei =>
      let step := lsInner n ei rest counts acc
      lsOuter rest step.1 step.2

/-- `findLinkSuggestions` from `enrich.go`: the all-pairs scan followed by
the descending insertion sort on similarity. -/
def findLinkSuggestions (notes : List NoteRow) : List LinkSuggestion :=
  sortDescBy (·.similarity) (lsOuter notes [] [])

/-- The claim-shaped inner loop: a pair is accepted exactly when the
similarity is at least the threshold, the pair is not already linked in
either direction, and at least one side is below the per-note cap; on
acceptance both counters are bumped. -/
def apInner (ni : NoteRow) (ei : List ℚ) :
    List NoteRow → List (String × ℕ) → List LinkSuggestion →
    List (String × ℕ) × List LinkSuggestion
  | [], counts, acc => (counts, acc)
  | nj :: rest, counts, acc =>
    match nj.embedding with
    | none => apInner ni ei rest counts acc
    | some ej =>
      if linkThreshold ≤ CosineSimilarity ei ej ∧ alreadyLinked ni nj = false ∧
          (countOf counts ni.path < maxPerNote ∨ countOf counts nj.path < maxPerNote) then
        apInner ni ei rest (bumpCount (bumpCount counts ni.path) nj.path)
          (acc ++ [⟨ni.path, nj.path, CosineSimilarity ei ej⟩])
      else apInner ni ei rest counts acc

/-- The claim-shaped outer loop. -/
def apOuter : List NoteRow → List (String × ℕ) → List LinkSuggestion → List LinkSuggestion
  | [], _, acc => acc
  | n :: rest, counts, acc =>
    match n.embedding with
    | none => apOuter rest counts acc
    | some ei =>
      let step := apInner n ei rest counts acc
      apOuter rest step.1 step.2

/-- The accepted pairs of the claim-shaped scan, in pair order. -/
def acceptedPairs (notes : List NoteRow) : List LinkSuggestion := apOuter notes [] []

/-- The per-note contribution to the `linked` set of `findOrphans`: each
wikilink trimmed, cut at the first `'#'`, dropped if then empty,
lower-cased. -/
def linkTargets (n : NoteRow) : List String :=
  if n.wikilinks = "" then []
  else (splitCommaSpace n.wikilinks.data).filterMap (fun l =>
    let link := stripFragment (trimSpaces l)
    if link = [] then none else some (String.mk (lowerList link)))

/-- The `linked` set of `findOrphans`, built over all notes (the scan
does not exclude the note itself). -/
def linkedSet (notes : List NoteRow) : List String :=
  notes.foldl (fun acc n => acc ++ linkTargets n) []

/-- `findOrphans` from `enrich.go`: notes whose lower-cased
filename-derived name and title both miss the `linked` set. -/
def findOrphans (notes : List NoteRow) : List String :=
  (notes.filter (fun n =>
    !((linkedSet notes).contains (lowerStr (noteName n))) &&
      !((linkedSet notes).contains (lowerStr n.title)))).map (·.path)

/-- One note's cross-reference set matches another's filename-derived name
or title (after trimming, fragment-stripping and lower-casing). -/
def refMatches (m n : NoteRow) : Bool :=
  (linkTargets m).any (fun l => l = lowerStr (noteName n) || l = lowerStr n.title)

/-- A note is referenced by some note of the collection (itself included,
as in the source's `linked` scan). -/
def referencedByAny (notes : List NoteRow) (n : NoteRow) : Bool :=
  notes.any (fun m => refMatches m n)

/-- The claim's wording for orphan detection: referenced by some *other*
document of the collection.  Stated for comparison with the source's
`findOrphans`, which scans every document including `n` itself. -/
def referencedByOther (notes : List NoteRow) (n : NoteRow) : Bool :=
  notes.any (fun m => decide (m ≠ n) && refMatches m n)

/-! ### The store as a list of rows (`store.go` row operations) -/

/-- `UpsertNote`: `INSERT ... ON CONFLICT(path) DO UPDATE` — replace the
row with the same path in place, else append. -/
def upsertNote (s : List NoteRow) (n : NoteRow) : List NoteRow :=
  if s.any (·.path = n.path) then s.map (fun r => if r.path = n.path then n else r)
  else s ++ [n]

/-- `DeleteNote`: `DELETE FROM notes WHERE path = ?` (no-op if absent). -/
def deleteNote (s : List NoteRow) (p : String) : List NoteRow :=
  s.filter (fun r => r.path ≠ p)

/-- `GetModTime`: the stored `mod_time`, `0` if the path is unindexed. -/
def getModTime (s : List NoteRow) (p : String) : Int :=
  match s.find? (·.path = p) with
  | some r => r.modTime
  | none => 0

/-- `EmbeddingDimensions = 768` from `store.go`. -/
def EmbeddingDimensions : ℕ := 768

/-- The mutating store operations of the public API. -/
inductive StoreOp where
  | upsert (n : NoteRow)
  | delete (p : String)

/-- Apply one store operation. -/
def applyOp (s : List NoteRow) : StoreOp → List NoteRow
  | .upsert n => upsertNote s n
  | .delete p => deleteNote s p

/-- The store state reached by a sequence of operations from the empty
store. -/
def runOps (ops : List StoreOp) : List NoteRow := ops.foldl applyOp []

/-- A row's embedding, when present, has dimension `EmbeddingDimensions`. -/
def dimOk (r : NoteRow) : Bool :=
  match r.embedding with
  | none => true
  | some e => e.length = EmbeddingDimensions

/-- The spec's data-model invariant: every present embedding in the store
has dimension exactly `EmbeddingDimensions`. -/
def dimInvariant (s : List NoteRow) : Prop := ∀ r ∈ s, dimOk r = true

/-- An operation respects the dimension invariant: it deletes, or it
upserts a row whose embedding (when present) has the full dimension. -/
def opDimOk : StoreOp → Bool
  | .upsert n => dimOk n
  | .delete _ => true

/-! ### Incremental indexer (`internal/cmd/index.go`) -/

/-- `vault.NoteInfo`: path, filename-derived name, last-modified
timestamp, as supplied by the (external) vault scanner. -/
structure NoteInfo where
  path : String
  name : String
  modTime : Int
deriving DecidableEq

/-- A parsed heading (`vault.Heading`). -/
structure Heading where
  level : ℕ
  text : String
deriving DecidableEq

/-- The `tags` frontmatter value consumed by `extractTags`: a string
list, a single scalar string, or anything else. -/
inductive FrontTags where
  | strList (ts : List String)
  | str (s : String)
  | absent
deriving DecidableEq

/-- The fields of `vault.Note` consumed by `IndexCmd`:
`Frontmatter["title"]` (when string-typed), `Frontmatter["tags"]`,
headings, wikilinks, body. -/
structure ParsedNote where
  fmTitle : Option String
  fmTags : FrontTags
  headings : List Heading
  wikilinks : List String
  body : String
deriving DecidableEq

/-- The first level-1 heading, else the fallback (the loop after the
frontmatter check in `extractTitle`). -/
def firstH1 (note : ParsedNote) (fallback : String) : String :=
  match note.headings.find? (fun h => h.level = 1) with
  | some h => h.text
  | none => fallback

/-- `extractTitle` from `index.go`: non-empty string-typed frontmatter
title, else first H1, else the filename. -/
def extractTitle (note : ParsedNote) (fallback : String) : String :=
  match note.fmTitle with
  | some t => if t = "" then firstH1 note fallback else t
  | none => firstH1 note fallback

/-- `extractTags` from `index.go`: a list joins with `", "`, a scalar
passes through, anything else yields `""`. -/
def extractTags (note : ParsedNote) : String :=
  match note.fmTags with
  | .strList ts => joinWith [',', ' '] ts
  | .str s => s
  | .absent => ""

/-- `extractHeadingTexts` from `index.go`: heading texts joined with
newlines (`""` when there are none). -/
def extractHeadingTexts (note : ParsedNote) : String :=
  if note.headings = [] then "" else joinWith ['\n'] (note.headings.map (·.text))

/-- `BuildSearchText` from `store.go`: skip empty parts, truncate the
body to 8000 characters (bytes in Go; characters here, coinciding on the
ASCII texts analysed), join with newlines. -/
def BuildSearchText (title tags headings body : String) : String :=
  let parts1 := if title = "" then [] else [title]
  let parts2 := parts1 ++ (if tags = "" then [] else [tags])
  let parts3 := parts2 ++ (if headings = "" then [] else [headings])
  let body' := if 8000 < body.data.length then String.mk (body.data.take 8000) else body
  let parts4 := parts3 ++ (if body = "" then [] else [body'])
  joinWith ['\n'] parts4

/-- The `NoteRow` built for one note requiring re-indexing (`index.go`
lines 96–104): fields derived from the parse, `mod_time` from the source
info, no embedding yet. -/
def buildRow (info : NoteInfo) (parsed : ParsedNote) : NoteRow :=
  { path := info.path
    title := extractTitle parsed info.name
    tags := extractTags parsed
    headings := extractHeadingTexts parsed
    wikilinks := joinWith [',', ' '] parsed.wikilinks
    body := parsed.body
    modTime := info.modTime
    embedding := none }

/-- The collection loop of `IndexCmd`: per source note, skip when the
stored timestamp is at least the source timestamp; else read and parse
(an unreadable note counts as one error); else queue the built row.
Returns (rows to index, skipped count, error count).  The note source is
the oracle `readNote`; store query errors (impossible in the pure store
model) are not represented. -/
def collectPhase (store : List NoteRow) (readNote : String → Option ParsedNote) :
    List NoteInfo → List NoteRow × ℕ × ℕ
  | [] => ([], 0, 0)
  | info :: rest =>
    let r := collectPhase store readNote rest
    if info.modTime ≤ getModTime store info.path then (r.1, r.2.1 + 1, r.2.2)
    else
      match readNote info.path with
      | none => (r.1, r.2.1, r.2.2 + 1)
      | some parsed => (buildRow info parsed :: r.1, r.2.1, r.2.2)

/-- `batchSize = 100` from `index.go`. -/
def batchSize : ℕ := 100

/-- Accumulator for `chunksOf`: `cur` is the (reversed) open chunk,
`fuel` the remaining capacity of the open chunk. -/
def chunkAux : List α → List α → ℕ → List (List α)
  | [], cur, _ => if cur.isEmpty then [] else [cur.reverse]
  | x :: xs, cur, fuel =>
    match fuel with
    | 0 => cur.reverse :: chunkAux xs [x] (batchSize - 1)
    | f + 1 => chunkAux xs (x :: cur) f

/-- The batch slicing of `IndexCmd`'s embedding loop
(`for start := 0; start < len(texts); start += batchSize`): consecutive
chunks of `batchSize`. -/
def chunksOf (l : List α) : List (List α) :=
  match l with
  | [] => []
  | x :: xs => chunkAux xs [x] (batchSize - 1)

/-- The embedding input text of one queued row (`index.go` line 118). -/
def rowText (r : NoteRow) : String := BuildSearchText r.title r.tags r.headings r.body

/-- Assign returned embeddings positionally (`for i, emb := range
embeddings`); surplus rows keep their current (absent) embedding. -/
def assignEmbs : List NoteRow → List (List ℚ) → List NoteRow
  | [], _ => []
  | rs, [] => rs
  | r :: rs, e :: es => { r with embedding := some e } :: assignEmbs rs es

/-- One chunk of the embedding loop: on failure every document of the
chunk counts as an error and keeps no embedding; on success the returned
vectors are assigned positionally. -/
def embedChunk (embedBatch : List String → Option (List (List ℚ))) (c : List NoteRow) :
    List NoteRow × ℕ :=
  match embedBatch (c.map rowText) with
  | none => (c, c.length)
  | some embs => (assignEmbs c embs, 0)

/-- The embedding phase of `IndexCmd`: every chunk is attempted; rows and
error counts are recombined in order. -/
def embedPhase (embedBatch : List String → Option (List (List ℚ))) (rows : List NoteRow) :
    List NoteRow × ℕ :=
  ((chunksOf rows).map (embedChunk embedBatch)).foldr
    (fun pr acc => (pr.1 ++ acc.1, pr.2 + acc.2)) ([], 0)

/-- The output tallies of `IndexCmd`. -/
structure IndexStats where
  notesIndexed : ℕ
  notesSkipped : ℕ
  notesRemoved : ℕ
  totalNotes : ℕ
  errors : ℕ
deriving DecidableEq

/-- `IndexCmd` from `index.go`: collect the rows needing (re-)indexing,
embed them in batches when the provider is available, upsert every queued
row (the pure store model cannot fail, so every queued row counts as
indexed), then reconcile: delete every indexed path absent from the
vault listing.  Returns the tallies and the final store. -/
def indexCmd (store : List NoteRow) (notes : List NoteInfo)
    (readNote : String → Option ParsedNote) (embedAvailable : Bool)
    (embedBatch : List String → Option (List (List ℚ))) : IndexStats × List NoteRow :=
  let collected := collectPhase store readNote notes
  let toIndex := collected.1
  let embedded :=
    if embedAvailable ∧ toIndex ≠ [] then embedPhase embedBatch toIndex else (toIndex, 0)
  let store1 := embedded.1.foldl upsertNote store
  let vaultPaths := notes.map (·.path)
  let removedPaths := (store1.map (·.path)).filter (fun p => !(vaultPaths.contains p))
  let store2 := removedPaths.foldl deleteNote store1
  ({ notesIndexed := embedded.1.length
     notesSkipped := collected.2.1
     notesRemoved := removedPaths.length
     totalNotes := store2.length
     errors := collected.2.2 + embedded.2 }, store2)

/-! ### The embedding client (`internal/index/embeddings.go`) -/

/-- The fields of `EmbeddingClient` relevant to control flow. -/
structure EmbeddingClient where
  apiKey : String
  modelName : String
deriving DecidableEq

/-- The structured error object of the Gemini wire protocol. -/
structure GeminiError where
  code : Int
  message : String
  status : String
deriving DecidableEq

/-- `IsAvailable`: true iff an API key is configured. -/
def IsAvailable (c : EmbeddingClient) : Bool := c.apiKey ≠ ""

/-- `EmbedBatch` from `embeddings.go`: fail when no API key is
configured; succeed with no vectors (Go returns `nil, nil`) on an empty
input without touching the network; otherwise defer to the HTTP call,
modelled by the oracle `net` (marshalling, the POST, unmarshalling and
the structured-error check). -/
def EmbedBatch (c : EmbeddingClient) (texts : List String)
    (net : List String → Except GeminiError (List (List ℚ))) :
    Except String (List (List ℚ)) :=
  if c.apiKey = "" then .error "Gemini API key not configured"
  else if texts = [] then .ok []
  else
    match net texts with
    | .error e => .error ("API error " ++ toString e.code ++ ": " ++ e.message)
    | .ok embs => .ok embs

/-! ### Concrete instances used by witness and counterexample theorems -/

/-- A keyword hit ranked first in the example lexical pool. -/
def hitA : SearchResult := ⟨"a.md", "A", 1, ""⟩

/-- A keyword hit ranked second in the example lexical pool. -/
def hitB : SearchResult := ⟨"b.md", "B", 1 / 2, ""⟩

/-- An example lexical-pool oracle (constant in the requested limit). -/
def kwPoolEx : ℕ → List SearchResult := fun _ => [hitA, hitB]

/-- A note whose embedding matches the example query exactly. -/
def noteB : NoteRow := ⟨"b.md", "B", "", "", "", "", 1, some [2, 0]⟩

/-- A note at cosine 3/5 from the example query. -/
def noteC : NoteRow := ⟨"c.md", "C", "", "", "", "", 1, some [6 / 5, 8 / 5]⟩

/-- The example query vector (norm² = 4, so `sqrt32` is exact). -/
def queryBC : List ℚ := [2, 0]

/-- Two notes with identical embeddings (for the tie counterexample). -/
def noteT1 : NoteRow := ⟨"t1.md", "", "", "", "", "", 1, some [2]⟩

/-- See `noteT1`. -/
def noteT2 : NoteRow := ⟨"t2.md", "", "", "", "", "", 1, some [2]⟩

/-- Link-suggestion example: cosine with `noteV` is exactly 7/10. -/
def noteU : NoteRow := ⟨"u.md", "U", "", "", "", "", 1, some [6 / 5, 8 / 5, 0, 0]⟩

/-- Link-suggestion example: cosine 7/10 with both `noteU` and `noteW`. -/
def noteV : NoteRow := ⟨"v.md", "V", "", "", "", "", 1, some [1, 1, 1, 1]⟩

/-- Link-suggestion example: orthogonal to `noteU`. -/
def noteW : NoteRow := ⟨"w.md", "W", "", "", "", "", 1, some [0, 0, 6 / 5, 8 / 5]⟩

/-- A note whose only wikilink is its own filename-derived name. -/
def selfNote : NoteRow := ⟨"foo.md", "", "", "", "foo", "", 1, none⟩

/-- A note referencing "Foo" only through a fragment-qualified wikilink. -/
def fragNote : NoteRow := ⟨"bar.md", "Bar", "", "", "Foo#Section", "", 1, none⟩

/-- The note titled "Foo" referenced by `fragNote`. -/
def fooNote : NoteRow := ⟨"foo2.md", "Foo", "", "", "", "", 1, none⟩

/-- A source listing entry for the indexer examples. -/
def infoN : NoteInfo := ⟨"n.md", "n", 5⟩

/-- A parse result for the indexer examples. -/
def parsedN : ParsedNote := ⟨some "T", .strList ["t1", "t2"], [⟨1, "H"⟩], ["x"], "body"⟩

/-- A note source where every read succeeds. -/
def readNoteEx : String → Option ParsedNote := fun _ => some parsedN

/-- An embedding oracle whose every batch call fails. -/
def failOracle : List String → Option (List (List ℚ)) := fun _ => none

/-- A queued row for the embedding-phase examples. -/
def rowP : NoteRow := ⟨"p.md", "P", "", "", "", "bp", 3, none⟩

/-- A second queued row for the embedding-phase examples. -/
def rowQ : NoteRow := ⟨"q.md", "Q", "", "", "", "bq", 3, none⟩

/-- A row whose embedding has dimension 4, not 768. -/
def badRow : NoteRow := ⟨"bad.md", "", "", "", "", "", 1, some [1, 0, 0, 0]⟩

/-- A row whose embedding has dimension exactly `EmbeddingDimensions`. -/
def goodRow : NoteRow :=
  ⟨"good.md", "", "", "", "", "", 1, some (List.replicate EmbeddingDimensions 0)⟩

/-- A client with a configured key. -/
def clientEx : EmbeddingClient := ⟨"key123", "gemini-embedding-001"⟩

/-- A client with no key configured. -/
def noKeyClient : EmbeddingClient := ⟨"", "gemini-embedding-001"⟩

/-- A network oracle that succeeds with empty vectors. -/
def netOkEx : List String → Except GeminiError (List (List ℚ)) :=
  fun ts => .ok (ts.map (fun _ => []))

/-- A network oracle that reports a structured error. -/
def netErrEx : List String → Except GeminiError (List (List ℚ)) :=
  fun _ => .error ⟨400, "bad", "INVALID"⟩

/-- An example embedding (as 32-bit patterns) for the round-trip witness. -/
def embEx : List ℕ := [1, 4294967295]

/-! ### Sorting lemmas: the insertion sort is a descending-sorted
permutation of its input -/

theorem insDescBy_perm (score : α → ℚ) (r : α) :
    ∀ l : List α, (insDescBy score r l).Perm (r :: l)
  | [] => List.Perm.refl _
  | x :: xs => by
    unfold insDescBy
    by_cases h : score x < score r
    · simp [h]
    · simp only [h, if_false]
      exact ((insDescBy_perm score r xs).cons x).trans (List.Perm.swap r x xs)

theorem sortDescBy_foldl_perm (score : α → ℚ) :
    ∀ (l acc : List α), (l.foldl (fun acc x => insDescBy score x acc) acc).Perm (acc ++ l)
  | [], acc => by simp
  | x :: xs, acc => by
    simp only [List.foldl_cons]
    have h1 := sortDescBy_foldl_perm score xs (insDescBy score x acc)
    have h2 : (insDescBy score x acc ++ xs).Perm (acc ++ x :: xs) :=
      ((insDescBy_perm score x acc).append_right xs).trans List.perm_middle.symm
    exact h1.trans h2

theorem sortDescBy_perm (score : α → ℚ) (l : List α) : (sortDescBy score l).Perm l := by
  simpa using sortDescBy_foldl_perm score l []

theorem insDescBy_sorted (score : α → ℚ) (r : α) :
    ∀ l : List α, sortedDescBy score l → sortedDescBy score (insDescBy score r l)
  | [], _ => by simp [insDescBy, sortedDescBy]
  | x :: xs, h => by
    rw [sortedDescBy, List.pairwise_cons] at h
    obtain ⟨hx, hs⟩ := h
    unfold insDescBy
    by_cases hc : score x < score r
    · simp only [hc, if_true]
      rw [sortedDescBy, List.pairwise_cons]
      refine ⟨?_, ?_⟩
      · intro b hb
        rcases List.mem_cons.mp hb with hb | hb
        · exact hb ▸ le_of_lt hc
        · exact le_trans (hx b hb) (le_of_lt hc)
      · rw [List.pairwise_cons]; exact ⟨hx, hs⟩
    · simp only [hc, if_false]
      rw [sortedDescBy, List.pairwise_cons]
      refine ⟨?_, insDescBy_sorted score r xs hs⟩
      intro b hb
      have hb' : b ∈ r :: xs := (insDescBy_perm score r xs).mem_iff.mp hb
      rcases List.mem_cons.mp hb' with hb' | hb'
      · exact hb' ▸ not_lt.mp hc
      · exact hx b hb'

theorem sortDescBy_foldl_sorted (score : α → ℚ) :
    ∀ (l acc : List α), sortedDescBy score acc →
      sortedDescBy score (l.foldl (fun acc x => insDescBy score x acc) acc)
  | [], _, h => h
  | x :: xs, acc, h => by
    simp only [List.foldl_cons]
    exact sortDescBy_foldl_sorted score xs _ (insDescBy_sorted score x acc h)

theorem sortDescBy_sorted (score : α → ℚ) (l : List α) :
    sortedDescBy score (sortDescBy score l) :=
  sortDescBy_foldl_sorted score l [] (List.Pairwise.nil)

theorem sortedDescBy_perm_nodup_eq (score : α → ℚ) :
    ∀ l₁ l₂ : List α, l₁.Perm l₂ → sortedDescBy score l₁ → sortedDescBy score l₂ →
      (l₁.map score).Nodup → l₁ = l₂
  | [], l₂, hp, _, _, _ => hp.nil_eq
  | a :: t₁, [], hp, _, _, _ => absurd hp.symm.nil_eq (by simp)
  | a :: t₁, b :: t₂, hp, h₁, h₂, hnd => by
    rw [sortedDescBy, List.pairwise_cons] at h₁ h₂
    have hab : a = b := by
      have hbmem : b ∈ a :: t₁ := hp.mem_iff.mpr (List.mem_cons_self b t₂)
      rcases List.mem_cons.mp hbmem with hb | hb
      · exact hb.symm
      · exfalso
        have hamem : a ∈ b :: t₂ := hp.mem_iff.mp (List.mem_cons_self a t₁)
        have hsba : score b ≤ score a := h₁.1 b hb
        have hsab : score a ≤ score b := by
          rcases List.mem_cons.mp hamem with ha | ha
          · exact le_of_eq (congrArg score ha)
          · exact h₂.1 a ha
        have heq : score b = score a := le_antisymm hsba hsab
        rw [List.map_cons, List.nodup_cons] at hnd
        exact hnd.1 (heq ▸ List.mem_map_of_mem score hb)
    subst hab
    have ht : t₁.Perm t₂ := hp.cons_inv
    have : t₁ = t₂ := by
      rw [List.map_cons, List.nodup_cons] at hnd
      exact sortedDescBy_perm_nodup_eq score t₁ t₂ ht
        (by rw [sortedDescBy]; exact h₁.2) (by rw [sortedDescBy]; exact h₂.2) hnd.2
    rw [this]

/-! ### Claim C6: embedding encode/decode -/

theorem encodeEmbedding_cons (x : ℕ) (xs : List ℕ) :
    encodeEmbedding (x :: xs) = byteLE x ++ encodeEmbedding xs := by
  simp [encodeEmbedding]

theorem encodeEmbedding_length : ∀ v : List ℕ, (encodeEmbedding v).length = 4 * v.length
  | [] => rfl
  | x :: xs => by
    rw [encodeEmbedding_cons, List.length_append, encodeEmbedding_length xs]
    simp [byteLE]
    omega

theorem decodeWords_encode :
    ∀ v : List ℕ, (∀ x ∈ v, x < 4294967296) → decodeWords (encodeEmbedding v) = v
  | [], _ => rfl
  | x :: xs, hb => by
    rw [encodeEmbedding_cons]
    have hx : x < 4294967296 := hb x (List.mem_cons_self x xs)
    have : byteLE x ++ encodeEmbedding xs =
        x % 256 :: (x / 256 % 256) :: (x / 65536 % 256) :: (x / 16777216 % 256) ::
          encodeEmbedding xs := by
      simp [byteLE]
    rw [this]
    unfold decodeWords
    rw [decodeWords_encode xs (fun y hy => hb y (List.mem_cons_of_mem x hy))]
    congr 1
    omega

/-- C6 (amended): decoding the little-endian encoding of any *non-empty*
vector of 32-bit patterns returns the original vector, and decoding any
byte sequence whose length is zero or not a multiple of 4 returns "no
embedding".  (The original claim quantified over every vector: the empty
vector encodes to the empty blob, which decodes to "no embedding", not to
an embedding of dimension zero — see the counterexample.) -/
theorem c6_encode_decode_amended (v : List ℕ) (hne : v ≠ [])
    (hbound : ∀ x ∈ v, x < 4294967296) :
    decodeEmbedding (encodeEmbedding v) = some v ∧
    (∀ b : List ℕ, b.length = 0 ∨ b.length % 4 ≠ 0 → decodeEmbedding b = none) := by
  constructor
  · unfold decodeEmbedding
    rw [if_neg, decodeWords_encode v hbound]
    rw [encodeEmbedding_length]
    push_neg
    constructor
    · have : v.length ≠ 0 := fun h => hne (List.eq_nil_of_length_eq_zero h)
      omega
    · omega
  · intro b hb
    unfold decodeEmbedding
    rw [if_pos hb]

/-- C6 counterexample: the empty embedding vector does not round-trip —
its encoding is the empty blob, which decodes to "no embedding"
(`none`), not to `some []`. -/
theorem c6_encode_decode_counterexample :
    decodeEmbedding (encodeEmbedding ([] : List ℕ)) = none ∧
    decodeEmbedding (encodeEmbedding ([] : List ℕ)) ≠ some [] := by
  constructor
  · rfl
  · intro h
    exact Option.noConfusion h

/-- C6 witness: a concrete non-empty vector round-trips. -/
theorem c6_encode_decode_witness :
    embEx ≠ [] ∧ decodeEmbedding (encodeEmbedding embEx) = some embEx :=
  ⟨by decide, (c6_encode_decode_amended embEx (by decide) (by decide)).1⟩

/-! ### Claim C5: semantic vector search -/

theorem dot32_self_zero : ∀ a : List ℚ, (∀ x ∈ a, x = 0) → dot32 a a = 0
  | [], _ => rfl
  | x :: xs, h => by
    have hx : x = 0 := h x (List.mem_cons_self x xs)
    have ih := dot32_self_zero xs (fun y hy => h y (List.mem_cons_of_mem x hy))
    unfold dot32
    rw [hx, ih]
    ring

theorem cosineSimilarity_degenerate (a b : List ℚ)
    (h : a.length ≠ b.length ∨ (∀ x ∈ a, x = 0) ∨ (∀ x ∈ b, x = 0)) :
    cosineSimilarity a b = 0 := by
  unfold cosineSimilarity
  rcases h with h | h | h
  · rw [if_pos (Or.inl h)]
  · by_cases hl : a.length ≠ b.length ∨ a.length = 0
    · rw [if_pos hl]
    · rw [if_neg hl, if_pos (Or.inl (dot32_self_zero a h))]
  · by_cases hl : a.length ≠ b.length ∨ a.length = 0
    · rw [if_pos hl]
    · rw [if_neg hl, if_pos (Or.inr (dot32_self_zero b h))]

theorem semanticHit_eq_some (q : List ℚ) (n : NoteRow) (r : SearchResult)
    (h : semanticHit q n = some r) :
    ∃ e, n.embedding = some e ∧ e ≠ [] ∧ 0 < cosineSimilarity q e ∧
      r = ⟨n.path, n.title, cosineSimilarity q e, ""⟩ := by
  cases hemb : n.embedding with
  | none =>
    simp only [semanticHit, hemb] at h
    exact Option.noConfusion h
  | some e =>
    simp only [semanticHit, hemb] at h
    by_cases he : e = []
    · rw [if_pos he] at h; exact absurd h (by simp)
    · rw [if_neg he] at h
      by_cases hs : 0 < cosineSimilarity q e
      · rw [if_pos hs] at h
        exact ⟨e, rfl, he, hs, (Option.some_injective _ h).symm⟩
      · rw [if_neg hs] at h; exact absurd h (by simp)

theorem semanticHit_complete (q : List ℚ) (n : NoteRow) (e : List ℚ)
    (hemb : n.embedding = some e) (hne : e ≠ []) (hpos : 0 < cosineSimilarity q e) :
    semanticHit q n = some ⟨n.path, n.title, cosineSimilarity q e, ""⟩ := by
  simp only [semanticHit, hemb]
  rw [if_neg hne, if_pos hpos]

/-- C5: `SearchSemantic` returns, sorted by score descending and
truncated to `limit`, hits drawn exactly from the records with a present,
decodable, non-empty embedding whose cosine score against the query is
strictly positive; and `cosineSimilarity` returns exactly 0 whenever the
two vectors have different lengths or either is the zero vector. -/
theorem c5_searchSemantic (notes : List NoteRow) (q : List ℚ) (limit : ℕ) :
    sortedDescBy (·.score) (searchSemantic notes q limit) ∧
    (searchSemantic notes q limit).length ≤ limit ∧
    (∀ r ∈ searchSemantic notes q limit, 0 < r.score ∧
      ∃ n ∈ notes, ∃ e, n.embedding = some e ∧ e ≠ [] ∧
        r = ⟨n.path, n.title, cosineSimilarity q e, ""⟩) ∧
    (∀ n ∈ notes, ∀ e, n.embedding = some e → e ≠ [] → 0 < cosineSimilarity q e →
      (⟨n.path, n.title, cosineSimilarity q e, ""⟩ : SearchResult) ∈
        semanticCandidates notes q) ∧
    (∀ a b : List ℚ, a.length ≠ b.length ∨ (∀ x ∈ a, x = 0) ∨ (∀ x ∈ b, x = 0) →
      cosineSimilarity a b = 0) := by
  unfold searchSemantic sortResults
  refine ⟨?_, ?_, ?_, ?_, ?_⟩
  · exact List.Pairwise.sublist (List.take_sublist _ _)
      (sortDescBy_sorted (fun r : SearchResult => r.score) (semanticCandidates notes q))
  · exact List.length_take_le _ _
  · intro r hr
    have hr' : r ∈ sortDescBy (fun r : SearchResult => r.score) (semanticCandidates notes q) :=
      List.mem_of_mem_take hr
    have hr'' : r ∈ semanticCandidates notes q :=
      (sortDescBy_perm (fun r : SearchResult => r.score) (semanticCandidates notes q)).mem_iff.mp
        hr'
    obtain ⟨n, hn, hhit⟩ := List.mem_filterMap.mp hr''
    obtain ⟨e, hemb, hne, hpos, hre⟩ := semanticHit_eq_some q n r hhit
    refine ⟨?_, n, hn, e, hemb, hne, hre⟩
    rw [hre]
    exact hpos
  · intro n hn e hemb hne hpos
    exact List.mem_filterMap.mpr ⟨n, hn, semanticHit_complete q n e hemb hne hpos⟩
  · exact cosineSimilarity_degenerate

/-- C5 witness: the theorem applied at a concrete store and query, plus a
concrete degenerate cosine evaluated through the theorem. -/
theorem c5_searchSemantic_witness :
    sortedDescBy (fun r : SearchResult => r.score) (searchSemantic [noteB, noteC] queryBC 10) ∧
    cosineSimilarity [1] [1, 2] = 0 :=
  ⟨(c5_searchSemantic [noteB, noteC] queryBC 10).1,
   (c5_searchSemantic [noteB, noteC] queryBC 10).2.2.2.2 [1] [1, 2] (Or.inl (by decide))⟩

/-! ### Claim C9: scan-order independence of the sorted outputs -/

/-- C9 (amended): vector-search and all-pairs outputs are always emitted
sorted by score descending; when the candidate scores are pairwise
distinct, the ordered output of the vector search is identical under any
two scan orders of the same record set.  (With tied scores the tie order
— and, for the all-pairs pass, cap-based acceptance — can follow scan
order: see the counterexample.) -/
theorem c9_scan_order_amended (notes1 notes2 : List NoteRow) (q : List ℚ) (limit : ℕ)
    (hperm : notes1.Perm notes2)
    (hnd : ((semanticCandidates notes1 q).map (·.score)).Nodup) :
    searchSemantic notes1 q limit = searchSemantic notes2 q limit ∧
    sortedDescBy (fun r : SearchResult => r.score) (searchSemantic notes1 q limit) ∧
    sortedDescBy (fun s : LinkSuggestion => s.similarity) (findLinkSuggestions notes1) := by
  refine ⟨?_, (c5_searchSemantic notes1 q limit).1, ?_⟩
  · have hcand : (semanticCandidates notes1 q).Perm (semanticCandidates notes2 q) :=
      hperm.filterMap (semanticHit q)
    have hs1 := sortDescBy_sorted (fun r : SearchResult => r.score) (semanticCandidates notes1 q)
    have hs2 := sortDescBy_sorted (fun r : SearchResult => r.score) (semanticCandidates notes2 q)
    have hp : (sortDescBy (fun r : SearchResult => r.score) (semanticCandidates notes1 q)).Perm
        (sortDescBy (fun r : SearchResult => r.score) (semanticCandidates notes2 q)) :=
      ((sortDescBy_perm _ _).trans hcand).trans (sortDescBy_perm _ _).symm
    have hnd1 :
        ((sortDescBy (fun r : SearchResult => r.score)
          (semanticCandidates notes1 q)).map (·.score)).Nodup :=
      (((sortDescBy_perm (fun r : SearchResult => r.score)
        (semanticCandidates notes1 q)).map (·.score)).nodup_iff).mpr hnd
    have heq := sortedDescBy_perm_nodup_eq (fun r : SearchResult => r.score) _ _ hp hs1 hs2 hnd1
    unfold searchSemantic sortResults
    rw [heq]
  · exact sortDescBy_sorted (fun s : LinkSuggestion => s.similarity) (lsOuter notes1 [] [])

attribute [local semireducible] Rat.add Rat.sub Rat.mul Rat.inv in
/-- C9 counterexample: two records with identical embeddings tie in
score; the tie order of the sorted vector-search output follows the scan
order, so two scan orders of the same record set give different ordered
outputs. -/
theorem c9_scan_order_counterexample :
    searchSemantic [noteT1, noteT2] [2] 2 ≠ searchSemantic [noteT2, noteT1] [2] 2 := by
  decide

attribute [local semireducible] Rat.add Rat.sub Rat.mul Rat.inv in
/-- C9 witness: at pairwise-distinct scores the two scan orders agree. -/
theorem c9_scan_order_witness :
    ([noteB, noteC].Perm [noteC, noteB]) ∧
    searchSemantic [noteB, noteC] queryBC 2 = searchSemantic [noteC, noteB] queryBC 2 :=
  ⟨List.Perm.swap noteC noteB [],
   (c9_scan_order_amended [noteB, noteC] [noteC, noteB] queryBC 2
     (List.Perm.swap noteC noteB []) (by decide)).1⟩


/-! ### Claim C4: orphan detection -/

theorem linkedSet_mem (notes : List NoteRow) (x : String) :
    x ∈ linkedSet notes ↔ ∃ m ∈ notes, x ∈ linkTargets m := by
  have key : ∀ (ns : List NoteRow) (acc : List String),
      (x ∈ ns.foldl (fun acc n => acc ++ linkTargets n) acc) ↔
        (x ∈ acc ∨ ∃ m ∈ ns, x ∈ linkTargets m) := by
    intro ns
    induction ns with
    | nil => intro acc; simp
    | cons n rest ih =>
      intro acc
      rw [List.foldl_cons, ih]
      simp only [List.mem_append, List.mem_cons]
      constructor
      · rintro (⟨h | h⟩ | ⟨m, hm, hx⟩)
        · exact Or.inl h
        · exact Or.inr ⟨n, Or.inl rfl, h⟩
        · exact Or.inr ⟨m, Or.inr hm, hx⟩
      · rintro (h | ⟨m, hm | hm, hx⟩)
        · exact Or.inl (Or.inl h)
        · exact Or.inl (Or.inr (hm ▸ hx))
        · exact Or.inr ⟨m, hm, hx⟩
  simpa [linkedSet] using key notes []

theorem referencedByAny_iff (notes : List NoteRow) (n : NoteRow) :
    referencedByAny notes n = true ↔
      lowerStr (noteName n) ∈ linkedSet notes ∨ lowerStr n.title ∈ linkedSet notes := by
  unfold referencedByAny refMatches
  rw [linkedSet_mem, linkedSet_mem]
  simp only [List.any_eq_true, Bool.or_eq_true, decide_eq_true_eq]
  constructor
  · rintro ⟨m, hm, l, hl, h | h⟩
    · exact Or.inl ⟨m, hm, h ▸ hl⟩
    · exact Or.inr ⟨m, hm, h ▸ hl⟩
  · rintro (⟨m, hm, hl⟩ | ⟨m, hm, hl⟩)
    · exact ⟨m, hm, _, hl, Or.inl rfl⟩
    · exact ⟨m, hm, _, hl, Or.inr rfl⟩

theorem contains_eq_decide_mem (l : List String) (x : String) :
    l.contains x = decide (x ∈ l) := by
  simp [List.contains, List.elem_eq_mem]

/-- C4 (amended): a document is classified as an orphan exactly when no
document of the collection — the document itself included — has a
cross-reference that, after trimming, stripping the fragment suffix at
the first `'#'` and lower-casing, matches the document's filename-derived
name or its title case-insensitively.  (The original claim restricted the
scan to *other* documents: the source builds its `linked` set from every
document's wikilinks, so a self-reference also defeats orphanhood — see
the counterexample.) -/
theorem c4_orphans_amended (notes : List NoteRow) :
    findOrphans notes =
      (notes.filter (fun n => !(referencedByAny notes n))).map (·.path) := by
  unfold findOrphans
  congr 1
  apply List.filter_congr
  intro n _
  cases hb : referencedByAny notes n with
  | true =>
    rcases (referencedByAny_iff notes n).mp hb with h | h
    · rw [contains_eq_decide_mem, decide_eq_true h]
      simp
    · rw [contains_eq_decide_mem (linkedSet notes) (lowerStr n.title), decide_eq_true h]
      simp
  | false =>
    have h1 : lowerStr (noteName n) ∉ linkedSet notes := by
      intro hm
      have := (referencedByAny_iff notes n).mpr (Or.inl hm)
      rw [hb] at this
      exact Bool.noConfusion this
    have h2 : lowerStr n.title ∉ linkedSet notes := by
      intro hm
      have := (referencedByAny_iff notes n).mpr (Or.inr hm)
      rw [hb] at this
      exact Bool.noConfusion this
    rw [contains_eq_decide_mem, contains_eq_decide_mem, decide_eq_false h1, decide_eq_false h2]
    simp

/-- C4 counterexample: a note whose only wikilink is its own
filename-derived name is not classified as an orphan, although no
*other* document references it (there is no other document at all).
Conversely, a note referenced elsewhere only through a fragment-qualified
wikilink is correctly not an orphan, while the referencing note itself
is. -/
theorem c4_orphans_counterexample :
    referencedByOther [selfNote] selfNote = false ∧
    findOrphans [selfNote] = [] ∧
    findOrphans [fooNote, fragNote] = ["bar.md"] := by
  decide

/-! ### Claim C3: link suggestions -/

theorem lsInner_eq_apInner (ni : NoteRow) (ei : List ℚ) :
    ∀ (rest : List NoteRow) (counts : List (String × ℕ)) (acc : List LinkSuggestion),
      lsInner ni ei rest counts acc = apInner ni ei rest counts acc
  | [], _, _ => rfl
  | nj :: rest, counts, acc => by
    cases hemb : nj.embedding with
    | none =>
      simp only [lsInner, apInner, hemb]
      exact lsInner_eq_apInner ni ei rest counts acc
    | some ej =>
      simp only [lsInner, apInner, hemb]
      by_cases hcap : maxPerNote ≤ countOf counts ni.path ∧ maxPerNote ≤ countOf counts nj.path
      · rw [if_pos hcap, if_neg (fun hcl => ?_)]
        · exact lsInner_eq_apInner ni ei rest counts acc
        · rcases hcl.2.2 with h | h
          · exact absurd hcap.1 (not_le.mpr h)
          · exact absurd hcap.2 (not_le.mpr h)
      · rw [if_neg hcap]
        have hor : countOf counts ni.path < maxPerNote ∨ countOf counts nj.path < maxPerNote := by
          by_contra hno
          push_neg at hno
          exact hcap hno
        by_cases hsim : CosineSimilarity ei ej < linkThreshold
        · rw [if_pos hsim, if_neg (fun hcl => absurd hsim (not_lt.mpr hcl.1))]
          exact lsInner_eq_apInner ni ei rest counts acc
        · rw [if_neg hsim]
          by_cases hlink : alreadyLinked ni nj = true
          · rw [if_pos hlink, if_neg (fun hcl => by rw [hcl.2.1] at hlink; cases hlink)]
            exact lsInner_eq_apInner ni ei rest counts acc
          · rw [if_neg hlink, if_pos hor,
              if_pos ⟨not_lt.mp hsim, Bool.not_eq_true _ ▸ hlink, hor⟩]
            exact lsInner_eq_apInner ni ei rest _ _

theorem lsOuter_eq_apOuter :
    ∀ (rest : List NoteRow) (counts : List (String × ℕ)) (acc : List LinkSuggestion),
      lsOuter rest counts acc = apOuter rest counts acc
  | [], _, _ => rfl
  | n :: rest, counts, acc => by
    cases hemb : n.embedding with
    | none =>
      simp only [lsOuter, apOuter, hemb]
      exact lsOuter_eq_apOuter rest counts acc
    | some ei =>
      simp only [lsOuter, apOuter, hemb, lsInner_eq_apInner]
      exact lsOuter_eq_apOuter rest _ _

theorem lsInner_prop (P : LinkSuggestion → Prop) (ni : NoteRow) (ei : List ℚ) :
    ∀ (rest : List NoteRow) (counts : List (String × ℕ)) (acc : List LinkSuggestion),
      (∀ s ∈ acc, P s) →
      (∀ nj ∈ rest, ∀ ej, nj.embedding = some ej →
        linkThreshold ≤ CosineSimilarity ei ej → alreadyLinked ni nj = false →
        P ⟨ni.path, nj.path, CosineSimilarity ei ej⟩) →
      ∀ s ∈ (lsInner ni ei rest counts acc).2, P s
  | [], _, acc, hacc, _ => hacc
  | nj :: rest, counts, acc, hacc, hnew => by
    have hnew' : ∀ nj' ∈ rest, ∀ ej, nj'.embedding = some ej →
        linkThreshold ≤ CosineSimilarity ei ej → alreadyLinked ni nj' = false →
        P ⟨ni.path, nj'.path, CosineSimilarity ei ej⟩ :=
      fun nj' h => hnew nj' (List.mem_cons_of_mem nj h)
    cases hemb : nj.embedding with
    | none =>
      simp only [lsInner, hemb]
      exact lsInner_prop P ni ei rest counts acc hacc hnew'
    | some ej =>
      simp only [lsInner, hemb]
      by_cases hcap : maxPerNote ≤ countOf counts ni.path ∧ maxPerNote ≤ countOf counts nj.path
      · rw [if_pos hcap]
        exact lsInner_prop P ni ei rest counts acc hacc hnew'
      · rw [if_neg hcap]
        by_cases hsim : CosineSimilarity ei ej < linkThreshold
        · rw [if_pos hsim]
          exact lsInner_prop P ni ei rest counts acc hacc hnew'
        · rw [if_neg hsim]
          by_cases hlink : alreadyLinked ni nj = true
          · rw [if_pos hlink]
            exact lsInner_prop P ni ei rest counts acc hacc hnew'
          · rw [if_neg hlink]
            by_cases hor : countOf counts ni.path < maxPerNote ∨
                countOf counts nj.path < maxPerNote
            · rw [if_pos hor]
              refine lsInner_prop P ni ei rest _ _ ?_ hnew'
              intro s hs
              rcases List.mem_append.mp hs with hs | hs
              · exact hacc s hs
              · rcases List.mem_singleton.mp hs with rfl
                exact hnew nj (List.mem_cons_self nj rest) ej hemb (not_lt.mp hsim)
                  (Bool.not_eq_true _ ▸ hlink)
            · rw [if_neg hor]
              exact lsInner_prop P ni ei rest counts acc hacc hnew'

theorem lsOuter_prop (P : LinkSuggestion → Prop) :
    ∀ (rest : List NoteRow) (counts : List (String × ℕ)) (acc : List LinkSuggestion),
      (∀ s ∈ acc, P s) →
      (∀ ni ∈ rest, ∀ nj ∈ rest, ∀ ei ej, ni.embedding = some ei → nj.embedding = some ej →
        linkThreshold ≤ CosineSimilarity ei ej → alreadyLinked ni nj = false →
        P ⟨ni.path, nj.path, CosineSimilarity ei ej⟩) →
      ∀ s ∈ lsOuter rest counts acc, P s
  | [], _, acc, hacc, _ => hacc
  | n :: rest, counts, acc, hacc, hnew => by
    have hnew' : ∀ ni ∈ rest, ∀ nj ∈ rest, ∀ ei ej, ni.embedding = some ei →
        nj.embedding = some ej → linkThreshold ≤ CosineSimilarity ei ej →
        alreadyLinked ni nj = false → P ⟨ni.path, nj.path, CosineSimilarity ei ej⟩ :=
      fun ni hi nj hj => hnew ni (List.mem_cons_of_mem n hi) nj (List.mem_cons_of_mem n hj)
    cases hemb : n.embedding with
    | none =>
      simp only [lsOuter, hemb]
      exact lsOuter_prop P rest counts acc hacc hnew'
    | some ei =>
      simp only [lsOuter, hemb]
      refine lsOuter_prop P rest _ _ ?_ hnew'
      refine lsInner_prop P n ei rest counts acc hacc ?_
      intro nj hj ej hej hsim hlink
      exact hnew n (List.mem_cons_self n rest) nj (List.mem_cons_of_mem n hj) ei ej hemb hej
        hsim hlink

/-- C3: the link-suggestion pass equals (after the shared descending
insertion sort) the claim-shaped scan that accepts an ordered pair
exactly when the cosine similarity is at least 0.70, the pair is not
already cross-referenced in either direction, and at least one side is
below the per-document cap of 5, bumping both counters on acceptance;
the emitted list is sorted by similarity descending and every suggestion
records two embedded notes at similarity at least 0.70 that were not
already linked. -/
theorem c3_link_suggestions (notes : List NoteRow) :
    findLinkSuggestions notes =
      sortDescBy (fun s : LinkSuggestion => s.similarity) (acceptedPairs notes) ∧
    sortedDescBy (fun s : LinkSuggestion => s.similarity) (findLinkSuggestions notes) ∧
    (∀ s ∈ findLinkSuggestions notes, linkThreshold ≤ s.similarity ∧
      ∃ ni ∈ notes, ∃ nj ∈ notes, ∃ ei ej, ni.embedding = some ei ∧ nj.embedding = some ej ∧
        s = ⟨ni.path, nj.path, CosineSimilarity ei ej⟩ ∧ alreadyLinked ni nj = false) := by
  refine ⟨?_, ?_, ?_⟩
  · unfold findLinkSuggestions acceptedPairs
    rw [lsOuter_eq_apOuter]
  · exact sortDescBy_sorted (fun s : LinkSuggestion => s.similarity) (lsOuter notes [] [])
  · intro s hs
    have hs' : s ∈ lsOuter notes [] [] :=
      (sortDescBy_perm (fun s : LinkSuggestion => s.similarity)
        (lsOuter notes [] [])).mem_iff.mp hs
    refine lsOuter_prop
      (fun s => linkThreshold ≤ s.similarity ∧
        ∃ ni ∈ notes, ∃ nj ∈ notes, ∃ ei ej, ni.embedding = some ei ∧ nj.embedding = some ej ∧
          s = ⟨ni.path, nj.path, CosineSimilarity ei ej⟩ ∧ alreadyLinked ni nj = false)
      notes [] [] (by simp) ?_ s hs'
    intro ni hni nj hnj ei ej hei hej hsim hlink
    exact ⟨hsim, ni, hni, nj, hnj, ei, ej, hei, hej, rfl, hlink⟩

attribute [local semireducible] Rat.add Rat.sub Rat.mul Rat.inv in
/-- C3 witness: on three concrete notes the pass accepts exactly the two
pairs at cosine similarity exactly 7/10 (the boundary is inclusive) and
rejects the orthogonal pair. -/
theorem c3_link_suggestions_witness :
    findLinkSuggestions [noteU, noteV, noteW] =
      sortDescBy (fun s : LinkSuggestion => s.similarity) (acceptedPairs [noteU, noteV, noteW]) ∧
    (findLinkSuggestions [noteU, noteV, noteW]).map (·.similarity) = [7 / 10, 7 / 10] ∧
    (findLinkSuggestions [noteU, noteV, noteW]).map (·.toPath) = ["v.md", "w.md"] :=
  ⟨(c3_link_suggestions [noteU, noteV, noteW]).1, by decide, by decide⟩

/-! ### Claim C8: the embedding-dimension invariant of the store -/

theorem dimInvariant_upsert (s : List NoteRow) (n : NoteRow)
    (hs : dimInvariant s) (hn : dimOk n = true) : dimInvariant (upsertNote s n) := by
  unfold upsertNote
  by_cases hp : s.any (·.path = n.path)
  · rw [if_pos hp]
    intro r hr
    obtain ⟨r', hr', hmap⟩ := List.mem_map.mp hr
    by_cases hpath : r'.path = n.path
    · rw [if_pos hpath] at hmap
      exact hmap ▸ hn
    · rw [if_neg hpath] at hmap
      exact hmap ▸ hs r' hr'
  · rw [if_neg hp]
    intro r hr
    rcases List.mem_append.mp hr with h | h
    · exact hs r h
    · rcases List.mem_singleton.mp h with rfl
      exact hn

theorem dimInvariant_delete (s : List NoteRow) (p : String)
    (hs : dimInvariant s) : dimInvariant (deleteNote s p) :=
  fun r hr => hs r (List.mem_of_mem_filter hr)

/-- C8 (amended): the store itself does not enforce the embedding
dimension; the invariant "every present embedding has dimension 768"
holds for a reachable state exactly to the extent that the operations
producing it only upsert full-dimension embeddings — which the indexing
pipeline guarantees, since the embedding API pins the output
dimensionality to 768.  Under that hypothesis the invariant is preserved
by every operation sequence. -/
theorem c8_dim_invariant_amended (ops : List StoreOp)
    (hops : ∀ op ∈ ops, opDimOk op = true) :
    dimInvariant (runOps ops) := by
  have key : ∀ (l : List StoreOp) (s : List NoteRow), dimInvariant s →
      (∀ op ∈ l, opDimOk op = true) → dimInvariant (l.foldl applyOp s) := by
    intro l
    induction l with
    | nil => intro s hs _; exact hs
    | cons op rest ih =>
      intro s hs hl
      rw [List.foldl_cons]
      refine ih (applyOp s op) ?_ (fun o ho => hl o (List.mem_cons_of_mem op ho))
      cases op with
      | upsert n => exact dimInvariant_upsert s n hs (hl _ (List.mem_cons_self _ _))
      | delete p => exact dimInvariant_delete s p hs
  exact key ops [] (fun r hr => absurd hr (List.not_mem_nil r)) hops

/-- C8 counterexample: `UpsertNote` accepts an embedding of any
dimension (the repository's own tests upsert 4-dimensional embeddings),
so a reachable state can violate the claimed invariant. -/
theorem c8_dim_invariant_counterexample :
    ¬ dimInvariant (runOps [StoreOp.upsert badRow]) := fun h =>
  absurd (h badRow (by simp [runOps, applyOp, upsertNote])) (by decide)

set_option maxRecDepth 4000 in
/-- C8 witness: a sequence upserting only 768-dimensional embeddings
reaches a state satisfying the invariant. -/
theorem c8_dim_invariant_witness :
    (∀ op ∈ [StoreOp.upsert goodRow], opDimOk op = true) ∧
    dimInvariant (runOps [StoreOp.upsert goodRow]) :=
  ⟨by decide, c8_dim_invariant_amended [StoreOp.upsert goodRow] (by decide)⟩

/-! ### Claim C1: hybrid search and reciprocal rank fusion -/

theorem lookupQ_updAdd :
    ∀ (m : List (String × ℚ)) (p : String) (v : ℚ) (q : String),
      lookupQ (updAdd m p v) q = lookupQ m q + (if p = q then v else 0)
  | [], p, v, q => by
    simp only [updAdd, lookupQ, List.find?_nil]
    by_cases h : p = q
    · rw [List.find?_cons_of_pos _ (by simpa using h), if_pos h]
      simp
    · rw [List.find?_cons_of_neg _ (by simpa using h), if_neg h]
      simp
  | e :: rest, p, v, q => by
    by_cases he : e.1 = p
    · rw [updAdd, if_pos he]
      by_cases hq : e.1 = q
      · have hpq : p = q := he ▸ hq
        rw [lookupQ, lookupQ, List.find?_cons_of_pos _ (by simpa using hq),
          List.find?_cons_of_pos _ (by simpa using hq), if_pos hpq]
        simp
      · have hpq : p ≠ q := fun h => hq (he.symm ▸ h)
        rw [lookupQ, lookupQ, List.find?_cons_of_neg _ (by simpa using hq),
          List.find?_cons_of_neg _ (by simpa using hq), if_neg hpq]
        simp [lookupQ]
    · rw [updAdd, if_neg he]
      by_cases hq : e.1 = q
      · have hpq : p ≠ q := fun h => he (h ▸ hq)
        rw [lookupQ, lookupQ, List.find?_cons_of_pos _ (by simpa using hq),
          List.find?_cons_of_pos _ (by simpa using hq), if_neg hpq]
        simp
      · rw [lookupQ, lookupQ, List.find?_cons_of_neg _ (by simpa using hq),
          List.find?_cons_of_neg _ (by simpa using hq)]
        exact lookupQ_updAdd rest p v q

theorem keys_updAdd :
    ∀ (m : List (String × ℚ)) (p : String) (v : ℚ) (q : String),
      q ∈ (updAdd m p v).map (·.1) ↔ q ∈ m.map (·.1) ∨ q = p
  | [], p, v, q => by simp [updAdd, eq_comm]
  | e :: rest, p, v, q => by
    by_cases he : e.1 = p
    · rw [updAdd, if_pos he]
      simp only [List.map_cons, List.mem_cons]
      constructor
      · rintro (h | h)
        · exact Or.inl (Or.inl h)
        · exact Or.inl (Or.inr h)
      · rintro ((h | h) | h)
        · exact Or.inl h
        · exact Or.inr h
        · exact Or.inl (h ▸ he.symm)
    · rw [updAdd, if_neg he]
      simp only [List.map_cons, List.mem_cons, keys_updAdd rest p v q]
      tauto

theorem keysNodup_updAdd :
    ∀ (m : List (String × ℚ)) (p : String) (v : ℚ),
      (m.map (·.1)).Nodup → ((updAdd m p v).map (·.1)).Nodup
  | [], p, v, _ => by simp [updAdd]
  | e :: rest, p, v, hnd => by
    rw [List.map_cons, List.nodup_cons] at hnd
    by_cases he : e.1 = p
    · rw [updAdd, if_pos he]
      rw [List.map_cons, List.nodup_cons]
      exact hnd
    · rw [updAdd, if_neg he]
      rw [List.map_cons, List.nodup_cons]
      refine ⟨?_, keysNodup_updAdd rest p v hnd.2⟩
      intro hmem
      rcases (keys_updAdd rest p v e.1).mp hmem with h | h
      · exact hnd.1 h
      · exact he h

theorem lookupQ_entry :
    ∀ (m : List (String × ℚ)) (e : String × ℚ), e ∈ m → (m.map (·.1)).Nodup →
      lookupQ m e.1 = e.2
  | [], e, he, _ => absurd he (List.not_mem_nil e)
  | f :: rest, e, he, hnd => by
    rw [List.map_cons, List.nodup_cons] at hnd
    rcases List.mem_cons.mp he with rfl | he'
    · rw [lookupQ, List.find?_cons_of_pos _ (by simp)]
      simp
    · have hne : f.1 ≠ e.1 := by
        intro h
        exact hnd.1 (h ▸ List.mem_map_of_mem (·.1) he')
      rw [lookupQ, List.find?_cons_of_neg _ (by simpa using hne)]
      exact lookupQ_entry rest e he' hnd.2

theorem addKeywordPool_scores :
    ∀ (rs : List SearchResult) (st : FuseState) (rank : ℕ) (p : String),
      lookupQ (addKeywordPool st rs rank).scores p =
        lookupQ st.scores p + rrfContrib rs rank p
  | [], st, rank, p => by simp [addKeywordPool, rrfContrib]
  | r :: rest, st, rank, p => by
    rw [addKeywordPool, rrfContrib, addKeywordPool_scores rest _ (rank + 1) p]
    show lookupQ (updAdd st.scores r.path (1 / (60 + (rank : ℚ)))) p + _ = _
    rw [lookupQ_updAdd]
    by_cases h : r.path = p
    · simp only [if_pos h]
      ring
    · simp only [if_neg h]
      ring

theorem addSemanticPool_scores :
    ∀ (rs : List SearchResult) (st : FuseState) (rank : ℕ) (p : String),
      lookupQ (addSemanticPool st rs rank).scores p =
        lookupQ st.scores p + rrfContrib rs rank p
  | [], st, rank, p => by simp [addSemanticPool, rrfContrib]
  | r :: rest, st, rank, p => by
    rw [addSemanticPool, rrfContrib, addSemanticPool_scores rest _ (rank + 1) p]
    show lookupQ (updAdd st.scores r.path (1 / (60 + (rank : ℚ)))) p + _ = _
    rw [lookupQ_updAdd]
    by_cases h : r.path = p
    · simp only [if_pos h]
      ring
    · simp only [if_neg h]
      ring

theorem addKeywordPool_keys :
    ∀ (rs : List SearchResult) (st : FuseState) (rank : ℕ) (p : String),
      (p ∈ st.scores.map (·.1) ∨ p ∈ rs.map (·.path)) →
        p ∈ (addKeywordPool st rs rank).scores.map (·.1)
  | [], st, rank, p, h => by
    rcases h with h | h
    · exact h
    · exact absurd h (by simp)
  | r :: rest, st, rank, p, h => by
    rw [addKeywordPool]
    refine addKeywordPool_keys rest _ (rank + 1) p ?_
    rcases h with h | h
    · exact Or.inl ((keys_updAdd _ _ _ _).mpr (Or.inl h))
    · rw [List.map_cons] at h
      rcases List.mem_cons.mp h with h' | h'
      · exact Or.inl ((keys_updAdd _ _ _ _).mpr (Or.inr h'))
      · exact Or.inr h'

theorem addSemanticPool_keys :
    ∀ (rs : List SearchResult) (st : FuseState) (rank : ℕ) (p : String),
      p ∈ st.scores.map (·.1) → p ∈ (addSemanticPool st rs rank).scores.map (·.1)
  | [], st, rank, p, h => h
  | r :: rest, st, rank, p, h => by
    rw [addSemanticPool]
    exact addSemanticPool_keys rest _ (rank + 1) p ((keys_updAdd _ _ _ _).mpr (Or.inl h))

theorem addKeywordPool_keysNodup :
    ∀ (rs : List SearchResult) (st : FuseState) (rank : ℕ),
      (st.scores.map (·.1)).Nodup → ((addKeywordPool st rs rank).scores.map (·.1)).Nodup
  | [], _, _, h => h
  | r :: rest, st, rank, h => by
    rw [addKeywordPool]
    exact addKeywordPool_keysNodup rest _ (rank + 1) (keysNodup_updAdd _ _ _ h)

theorem addSemanticPool_keysNodup :
    ∀ (rs : List SearchResult) (st : FuseState) (rank : ℕ),
      (st.scores.map (·.1)).Nodup → ((addSemanticPool st rs rank).scores.map (·.1)).Nodup
  | [], _, _, h => h
  | r :: rest, st, rank, h => by
    rw [addSemanticPool]
    exact addSemanticPool_keysNodup rest _ (rank + 1) (keysNodup_updAdd _ _ _ h)

theorem rrfContrib_not_mem :
    ∀ (rs : List SearchResult) (rank : ℕ) (p : String),
      p ∉ rs.map (·.path) → rrfContrib rs rank p = 0
  | [], _, _, _ => rfl
  | r :: rest, rank, p, h => by
    rw [rrfContrib, if_neg (fun hr => h (by simp [hr.symm])),
      rrfContrib_not_mem rest (rank + 1) p (fun hr => h (by simp; tauto))]
    ring

/-- C1 (amended): `SearchHybrid` obtains the lexical and semantic pools
each with `limit*2` and fuses them by reciprocal rank fusion: every
emitted hit's score is the sum, over the pools containing its path, of
`1/(60+r)` for its 1-based rank `r` in that pool; the output is sorted by
fused score descending and truncated to `limit`.  A document at rank 1 of
the lexical pool and absent from the semantic pool is assigned cumulative
score exactly `1/61`, and appears in the fused result whenever the fused
candidate set is not truncated (at most `limit` candidates); truncation
can displace it — see the counterexample. -/
theorem c1_search_hybrid_amended (searchKeyword : ℕ → List SearchResult)
    (notes : List NoteRow) (q : List ℚ) (limit : ℕ)
    (hkw : ((searchKeyword (limit * 2)).map (·.path)).Nodup) (_hpos : 0 < limit) :
    SearchHybrid searchKeyword notes q limit =
      fuseRRF (searchKeyword (limit * 2)) (searchSemantic notes q (limit * 2)) limit ∧
    (∀ r ∈ SearchHybrid searchKeyword notes q limit,
      r.score = rrfContrib (searchKeyword (limit * 2)) 1 r.path +
        rrfContrib (searchSemantic notes q (limit * 2)) 1 r.path) ∧
    sortedDescBy (fun r : SearchResult => r.score) (SearchHybrid searchKeyword notes q limit) ∧
    (SearchHybrid searchKeyword notes q limit).length ≤ limit ∧
    (∀ r0, (searchKeyword (limit * 2)).head? = some r0 →
      r0.path ∉ (searchSemantic notes q (limit * 2)).map (·.path) →
      rrfContrib (searchKeyword (limit * 2)) 1 r0.path +
          rrfContrib (searchSemantic notes q (limit * 2)) 1 r0.path = 1 / 61 ∧
      ((fuseCandidates (searchKeyword (limit * 2))
          (searchSemantic notes q (limit * 2))).length ≤ limit →
        r0.path ∈ (SearchHybrid searchKeyword notes q limit).map (·.path))) := by
  have hnd : ((addSemanticPool (addKeywordPool ⟨[], [], []⟩ (searchKeyword (limit * 2)) 1)
      (searchSemantic notes q (limit * 2)) 1).scores.map (·.1)).Nodup :=
    addSemanticPool_keysNodup _ _ _ (addKeywordPool_keysNodup _ _ _ (by simp))
  have hscore : ∀ p,
      lookupQ (addSemanticPool (addKeywordPool ⟨[], [], []⟩ (searchKeyword (limit * 2)) 1)
        (searchSemantic notes q (limit * 2)) 1).scores p =
      rrfContrib (searchKeyword (limit * 2)) 1 p +
        rrfContrib (searchSemantic notes q (limit * 2)) 1 p := by
    intro p
    rw [addSemanticPool_scores, addKeywordPool_scores]
    simp [lookupQ]
  refine ⟨rfl, ?_, ?_, ?_, ?_⟩
  · intro r hr
    have hr1 : r ∈ sortResults (fuseCandidates (searchKeyword (limit * 2))
        (searchSemantic notes q (limit * 2))) := List.mem_of_mem_take hr
    have hr2 : r ∈ fuseCandidates (searchKeyword (limit * 2))
        (searchSemantic notes q (limit * 2)) :=
      (sortDescBy_perm (fun r : SearchResult => r.score) _).mem_iff.mp hr1
    simp only [fuseCandidates] at hr2
    obtain ⟨e, he, hre⟩ := List.mem_map.mp hr2
    have hpath : r.path = e.1 := by rw [← hre]
    have hsc : r.score = e.2 := by rw [← hre]
    rw [hsc, hpath, ← hscore e.1]
    exact (lookupQ_entry _ e he hnd).symm
  · exact List.Pairwise.sublist (List.take_sublist _ _)
      (sortDescBy_sorted (fun r : SearchResult => r.score) _)
  · exact List.length_take_le _ _
  · intro r0 hhead hnot
    obtain ⟨rest, hrest⟩ : ∃ rest, searchKeyword (limit * 2) = r0 :: rest := by
      cases hc : searchKeyword (limit * 2) with
      | nil => rw [hc] at hhead; exact absurd hhead (by simp)
      | cons a l =>
        rw [hc] at hhead
        simp only [List.head?_cons, Option.some_inj] at hhead
        exact ⟨l, by rw [hhead]⟩
    have hnotrest : r0.path ∉ rest.map (·.path) := by
      rw [hrest, List.map_cons, List.nodup_cons] at hkw
      exact hkw.1
    have hkwc : rrfContrib (searchKeyword (limit * 2)) 1 r0.path = 1 / 61 := by
      rw [hrest, rrfContrib, if_pos rfl, rrfContrib_not_mem rest 2 r0.path hnotrest]
      norm_num
    have hsemc : rrfContrib (searchSemantic notes q (limit * 2)) 1 r0.path = 0 :=
      rrfContrib_not_mem _ 1 r0.path hnot
    refine ⟨by rw [hkwc, hsemc]; ring, ?_⟩
    intro hlen
    have hkeys : r0.path ∈
        (addSemanticPool (addKeywordPool ⟨[], [], []⟩ (searchKeyword (limit * 2)) 1)
          (searchSemantic notes q (limit * 2)) 1).scores.map (·.1) :=
      addSemanticPool_keys _ _ _ _
        (addKeywordPool_keys _ _ _ _ (Or.inr (by rw [hrest]; simp)))
    obtain ⟨e, he, hep⟩ := List.mem_map.mp hkeys
    have hmem : r0.path ∈ (fuseCandidates (searchKeyword (limit * 2))
        (searchSemantic notes q (limit * 2))).map (·.path) := by
      simp only [fuseCandidates]
      rw [List.map_map]
      exact List.mem_map.mpr ⟨e, he, hep⟩
    have hlen2 : (sortResults (fuseCandidates (searchKeyword (limit * 2))
        (searchSemantic notes q (limit * 2)))).length ≤ limit := by
      unfold sortResults
      rw [(sortDescBy_perm (fun r : SearchResult => r.score) _).length_eq]
      exact hlen
    show r0.path ∈ (fuseRRF (searchKeyword (limit * 2))
      (searchSemantic notes q (limit * 2)) limit).map (·.path)
    unfold fuseRRF
    rw [List.take_of_length_le hlen2]
    exact (((sortDescBy_perm (fun r : SearchResult => r.score) _).map (·.path)).mem_iff).mpr hmem

attribute [local semireducible] Rat.add Rat.sub Rat.mul Rat.inv in
/-- C1 counterexample: with lexical pool `[a, b]`, semantic pool `[b, c]`
and `limit = 1`, the document `a.md` is ranked first lexically and absent
semantically, yet the fused result is `[b.md]` — truncation to `limit`
displaces it, so it does not "appear in the fused result". -/
theorem c1_search_hybrid_counterexample :
    (kwPoolEx (1 * 2)).head? = some hitA ∧
    hitA.path ∉ (searchSemantic [noteB, noteC] queryBC (1 * 2)).map (·.path) ∧
    (SearchHybrid kwPoolEx [noteB, noteC] queryBC 1).map (·.path) = ["b.md"] ∧
    hitA.path ∉ (SearchHybrid kwPoolEx [noteB, noteC] queryBC 1).map (·.path) := by
  decide

attribute [local semireducible] Rat.add Rat.sub Rat.mul Rat.inv in
/-- C1 witness: at `limit = 3` nothing is truncated and the rank-1
lexical-only document appears with fused score exactly 1/61. -/
theorem c1_search_hybrid_witness :
    ((kwPoolEx (3 * 2)).map (·.path)).Nodup ∧
    (rrfContrib (kwPoolEx (3 * 2)) 1 hitA.path +
        rrfContrib (searchSemantic [noteB, noteC] queryBC (3 * 2)) 1 hitA.path = 1 / 61 ∧
      hitA.path ∈ (SearchHybrid kwPoolEx [noteB, noteC] queryBC 3).map (·.path)) := by
  refine ⟨by decide, ?_⟩
  have h := (c1_search_hybrid_amended kwPoolEx [noteB, noteC] queryBC 3 (by decide)
    (by decide)).2.2.2.2 hitA (by decide) (by decide)
  exact ⟨h.1, h.2 (by decide)⟩

/-! ### Claims C2 and C7: the incremental indexer -/

theorem collectPhase_skipped (store : List NoteRow) (rn : String → Option ParsedNote) :
    ∀ notes : List NoteInfo,
      (collectPhase store rn notes).2.1 =
        (notes.filter (fun i => decide (i.modTime ≤ getModTime store i.path))).length
  | [] => rfl
  | info :: rest => by
    rw [collectPhase]
    by_cases h : info.modTime ≤ getModTime store info.path
    · rw [if_pos h, List.filter_cons_of_pos (by simpa using h)]
      simp [collectPhase_skipped store rn rest]
    · rw [if_neg h, List.filter_cons_of_neg (by simpa using h)]
      cases rn info.path with
      | none => simpa using collectPhase_skipped store rn rest
      | some parsed => simpa using collectPhase_skipped store rn rest

theorem collectPhase_rows_pm (store : List NoteRow) (rn : String → Option ParsedNote) :
    ∀ notes : List NoteInfo, (∀ i ∈ notes, (rn i.path).isSome) →
      (collectPhase store rn notes).1.map (fun r => (r.path, r.modTime)) =
        (notes.filter (fun i => !decide (i.modTime ≤ getModTime store i.path))).map
          (fun i => (i.path, i.modTime))
  | [], _ => rfl
  | info :: rest, hread => by
    have hr := collectPhase_rows_pm store rn rest
      (fun i hi => hread i (List.mem_cons_of_mem info hi))
    rw [collectPhase]
    by_cases h : info.modTime ≤ getModTime store info.path
    · rw [if_pos h, List.filter_cons_of_neg (by simpa using h)]
      exact hr
    · rw [if_neg h, List.filter_cons_of_pos (by simpa using h)]
      cases hrn : rn info.path with
      | none =>
        have := hread info (List.mem_cons_self info rest)
        rw [hrn] at this
        exact absurd this (by simp)
      | some parsed =>
        simp only [List.map_cons]
        rw [← hr]
        rfl

theorem chunkAux_flatten :
    ∀ (xs cur : List α) (fuel : ℕ), (chunkAux xs cur fuel).flatten = cur.reverse ++ xs
  | [], cur, fuel => by
    cases hc : cur with
    | nil => simp [chunkAux]
    | cons c cs => simp [chunkAux, hc]
  | x :: xs, cur, fuel => by
    cases fuel with
    | zero => simp [chunkAux, chunkAux_flatten xs [x] (batchSize - 1)]
    | succ f => simp [chunkAux, chunkAux_flatten xs (x :: cur) f]

theorem chunksOf_flatten : ∀ l : List α, (chunksOf l).flatten = l
  | [] => rfl
  | x :: xs => by simp [chunksOf, chunkAux_flatten xs [x] (batchSize - 1)]

theorem embedPhase_fst (oracle : List String → Option (List (List ℚ))) (rows : List NoteRow) :
    (embedPhase oracle rows).1 =
      ((chunksOf rows).map (fun c => (embedChunk oracle c).1)).flatten := by
  unfold embedPhase
  generalize chunksOf rows = cs
  induction cs with
  | nil => rfl
  | cons c rest ih => simp [List.foldr_cons, ih]

theorem embedPhase_snd (oracle : List String → Option (List (List ℚ))) (rows : List NoteRow) :
    (embedPhase oracle rows).2 =
      ((chunksOf rows).map (fun c => (embedChunk oracle c).2)).sum := by
  unfold embedPhase
  generalize chunksOf rows = cs
  induction cs with
  | nil => rfl
  | cons c rest ih => simp [List.foldr_cons, ih]

theorem assignEmbs_pm :
    ∀ (rs : List NoteRow) (es : List (List ℚ)),
      (assignEmbs rs es).map (fun r => (r.path, r.modTime)) =
        rs.map (fun r => (r.path, r.modTime))
  | [], es => by simp [assignEmbs]
  | r :: rs, [] => by simp [assignEmbs]
  | r :: rs, e :: es => by
    simp only [assignEmbs, List.map_cons, assignEmbs_pm rs es]

theorem embedChunk_pm (oracle : List String → Option (List (List ℚ))) (c : List NoteRow) :
    ((embedChunk oracle c).1).map (fun r => (r.path, r.modTime)) =
      c.map (fun r => (r.path, r.modTime)) := by
  unfold embedChunk
  cases oracle (c.map rowText) with
  | none => rfl
  | some embs => exact assignEmbs_pm c embs

theorem embedPhase_pm (oracle : List String → Option (List (List ℚ))) (rows : List NoteRow) :
    ((embedPhase oracle rows).1).map (fun r => (r.path, r.modTime)) =
      rows.map (fun r => (r.path, r.modTime)) := by
  rw [embedPhase_fst, List.map_flatten]
  have : ((chunksOf rows).map (fun c => (embedChunk oracle c).1)).map
      (List.map (fun r => (r.path, r.modTime))) =
      (chunksOf rows).map (List.map (fun r => (r.path, r.modTime))) := by
    rw [List.map_map]
    exact List.map_congr_left (fun c _ => embedChunk_pm oracle c)
  rw [this, ← List.map_flatten, chunksOf_flatten]

theorem find?_map_replace_self (n : NoteRow) :
    ∀ s : List NoteRow, s.any (·.path = n.path) = true →
      (s.map (fun r => if r.path = n.path then n else r)).find? (·.path = n.path) = some n
  | [], h => by simp at h
  | r :: rest, h => by
    by_cases hr : r.path = n.path
    · simp only [List.map_cons, if_pos hr]
      rw [List.find?_cons_of_pos _ (by simp)]
    · simp only [List.map_cons, if_neg hr]
      rw [List.find?_cons_of_neg _ (by simpa using hr)]
      have h' : rest.any (·.path = n.path) = true := by
        rcases List.any_eq_true.mp h with ⟨x, hx, hxp⟩
        rcases List.mem_cons.mp hx with rfl | hx'
        · exact absurd (by simpa using hxp) hr
        · exact List.any_eq_true.mpr ⟨x, hx', hxp⟩
      exact find?_map_replace_self n rest h'

theorem find?_not_any (pn : String) :
    ∀ s : List NoteRow, s.any (·.path = pn) = false → s.find? (·.path = pn) = none
  | [], _ => rfl
  | r :: rest, h => by
    rw [List.any_cons] at h
    have hr : (r.path = pn) = False := by
      by_contra hc
      simp only [eq_iff_iff, iff_false] at hc
      push_neg at hc
      rw [decide_eq_true hc] at h
      simp at h
    rw [List.find?_cons_of_neg _ (by simp [hr]), find?_not_any pn rest (by
      cases hcond : decide (r.path = pn) <;> rw [hcond] at h
      · simpa using h
      · simp at h)]

theorem getModTime_upsert_self (s : List NoteRow) (n : NoteRow) :
    getModTime (upsertNote s n) n.path = n.modTime := by
  unfold upsertNote getModTime
  by_cases h : s.any (·.path = n.path)
  · rw [if_pos h, find?_map_replace_self n s h]
  · rw [if_neg h, List.find?_append, find?_not_any n.path s (by simpa using h)]
    simp

theorem getModTime_upsert_other (s : List NoteRow) (n : NoteRow) (p : String)
    (hne : p ≠ n.path) : getModTime (upsertNote s n) p = getModTime s p := by
  unfold upsertNote getModTime
  by_cases h : s.any (·.path = n.path)
  · rw [if_pos h]
    clear h
    induction s with
    | nil => rfl
    | cons r rest ih =>
      by_cases hr : r.path = n.path
      · simp only [List.map_cons, if_pos hr]
        rw [List.find?_cons_of_neg _ (by simpa using Ne.symm hne),
          List.find?_cons_of_neg _ (by simp [hr]; exact Ne.symm hne)]
        exact ih
      · simp only [List.map_cons, if_neg hr]
        by_cases hp : r.path = p
        · rw [List.find?_cons_of_pos _ (by simpa using hp),
            List.find?_cons_of_pos _ (by simpa using hp)]
        · rw [List.find?_cons_of_neg _ (by simpa using hp),
            List.find?_cons_of_neg _ (by simpa using hp)]
          exact ih
  · rw [if_neg h, List.find?_append]
    have : List.find? (·.path = p) [n] = none := by
      rw [List.find?_cons_of_neg _ (by simp [Ne.symm hne])]
      rfl
    rw [this]
    cases List.find? (·.path = p) s <;> rfl

theorem getModTime_foldl_upsert_not_mem :
    ∀ (rows : List NoteRow) (s : List NoteRow) (p : String), p ∉ rows.map (·.path) →
      getModTime (rows.foldl upsertNote s) p = getModTime s p
  | [], _, _, _ => rfl
  | r :: rest, s, p, h => by
    rw [List.map_cons, List.mem_cons] at h
    push_neg at h
    rw [List.foldl_cons,
      getModTime_foldl_upsert_not_mem rest (upsertNote s r) p (fun hm => h.2 hm),
      getModTime_upsert_other s r p h.1]

theorem getModTime_foldl_upsert_mem :
    ∀ (rows : List NoteRow) (s : List NoteRow) (p : String) (mt : Int),
      (p, mt) ∈ rows.map (fun r => (r.path, r.modTime)) → (rows.map (·.path)).Nodup →
      getModTime (rows.foldl upsertNote s) p = mt
  | [], _, _, _, h, _ => absurd h (by simp)
  | r :: rest, s, p, mt, h, hnd => by
    rw [List.map_cons, List.nodup_cons] at hnd
    rw [List.map_cons, List.mem_cons] at h
    rw [List.foldl_cons]
    rcases h with h | h
    · have hp : p = r.path := congrArg Prod.fst h
      have hm : mt = r.modTime := congrArg Prod.snd h
      rw [hp, hm,
        getModTime_foldl_upsert_not_mem rest (upsertNote s r) r.path hnd.1,
        getModTime_upsert_self s r]
    · exact getModTime_foldl_upsert_mem rest (upsertNote s r) p mt h hnd.2

theorem getModTime_delete_other (s : List NoteRow) (p q : String) (hne : q ≠ p) :
    getModTime (deleteNote s p) q = getModTime s q := by
  unfold deleteNote getModTime
  induction s with
  | nil => rfl
  | cons r rest ih =>
    by_cases hr : r.path = p
    · rw [List.filter_cons_of_neg (by simpa using hr),
        List.find?_cons_of_neg _ (by simp [hr]; exact Ne.symm (hr ▸ hne))]
      exact ih
    · rw [List.filter_cons_of_pos (by simpa using hr)]
      by_cases hq : r.path = q
      · rw [List.find?_cons_of_pos _ (by simpa using hq),
          List.find?_cons_of_pos _ (by simpa using hq)]
      · rw [List.find?_cons_of_neg _ (by simpa using hq),
          List.find?_cons_of_neg _ (by simpa using hq)]
        exact ih

theorem getModTime_foldl_delete :
    ∀ (ps : List String) (s : List NoteRow) (q : String), q ∉ ps →
      getModTime (ps.foldl deleteNote s) q = getModTime s q
  | [], _, _, _ => rfl
  | p :: rest, s, q, h => by
    rw [List.mem_cons] at h
    push_neg at h
    rw [List.foldl_cons, getModTime_foldl_delete rest (deleteNote s p) q h.2,
      getModTime_delete_other s p q h.1]

theorem any_upsert_mono (s : List NoteRow) (n : NoteRow) (p : String)
    (h : s.any (·.path = p) = true) : (upsertNote s n).any (·.path = p) = true := by
  unfold upsertNote
  by_cases hn : s.any (·.path = n.path)
  · rw [if_pos hn]
    obtain ⟨x, hx, hxp⟩ := List.any_eq_true.mp h
    refine List.any_eq_true.mpr ⟨if x.path = n.path then n else x, List.mem_map_of_mem _ hx, ?_⟩
    by_cases hxn : x.path = n.path
    · rw [if_pos hxn]
      have : p = n.path := by
        have := of_decide_eq_true hxp
        rw [← this, hxn]
      simp [this]
    · rw [if_neg hxn]
      exact hxp
  · rw [if_neg hn]
    obtain ⟨x, hx, hxp⟩ := List.any_eq_true.mp h
    exact List.any_eq_true.mpr ⟨x, List.mem_append_left _ hx, hxp⟩

theorem any_upsert_self (s : List NoteRow) (n : NoteRow) :
    (upsertNote s n).any (·.path = n.path) = true := by
  unfold upsertNote
  by_cases hn : s.any (·.path = n.path)
  · rw [if_pos hn]
    obtain ⟨x, hx, hxp⟩ := List.any_eq_true.mp hn
    refine List.any_eq_true.mpr ⟨if x.path = n.path then n else x, List.mem_map_of_mem _ hx, ?_⟩
    rw [if_pos (of_decide_eq_true hxp)]
    simp
  · rw [if_neg hn]
    exact List.any_eq_true.mpr ⟨n, List.mem_append_right _ (by simp), by simp⟩

theorem foldl_upsert_any_mono :
    ∀ (rows : List NoteRow) (s : List NoteRow) (p : String), s.any (·.path = p) = true →
      ((rows.foldl upsertNote s).any (·.path = p)) = true
  | [], _, _, h => h
  | x :: rest, s, p, h => by
    rw [List.foldl_cons]
    exact foldl_upsert_any_mono rest (upsertNote s x) p (any_upsert_mono s x p h)

theorem foldl_upsert_any :
    ∀ (rows : List NoteRow) (s : List NoteRow) (r : NoteRow), r ∈ rows →
      ((rows.foldl upsertNote s).any (·.path = r.path)) = true
  | [], _, _, h => absurd h (List.not_mem_nil _)
  | x :: rest, s, r, h => by
    rw [List.foldl_cons]
    rcases List.mem_cons.mp h with rfl | h'
    · exact foldl_upsert_any_mono rest (upsertNote s r) r.path (any_upsert_self s r)
    · exact foldl_upsert_any rest (upsertNote s x) r h'

/-- C7: the embedding phase chunks the pending rows (the chunks
partition the row list), attempts every chunk independently, counts one
error per document of each failed chunk, passes the documents of a
failed chunk through unchanged (in particular still without an
embedding), and every resulting row — embedded or not — is present in
the store after the upsert loop. -/
theorem c7_chunked_embedding (oracle : List String → Option (List (List ℚ)))
    (rows : List NoteRow) (store : List NoteRow) :
    (chunksOf rows).flatten = rows ∧
    ((embedPhase oracle rows).1).map (fun r => (r.path, r.modTime)) =
      rows.map (fun r => (r.path, r.modTime)) ∧
    (embedPhase oracle rows).2 =
      (((chunksOf rows).filter (fun c => (oracle (c.map rowText)).isNone)).map
        List.length).sum ∧
    (∀ c ∈ chunksOf rows, oracle (c.map rowText) = none →
      ∀ r ∈ c, r ∈ (embedPhase oracle rows).1) ∧
    (∀ r ∈ (embedPhase oracle rows).1,
      (((embedPhase oracle rows).1.foldl upsertNote store).any (·.path = r.path)) = true) := by
  refine ⟨chunksOf_flatten rows, embedPhase_pm oracle rows, ?_, ?_, ?_⟩
  · rw [embedPhase_snd]
    generalize chunksOf rows = cs
    induction cs with
    | nil => rfl
    | cons c rest ih =>
      rw [List.map_cons, List.sum_cons, ih]
      cases ho : oracle (c.map rowText) with
      | none =>
        rw [List.filter_cons_of_pos (by simp [ho]), List.map_cons, List.sum_cons]
        congr 1
        simp [embedChunk, ho]
      | some embs =>
        rw [List.filter_cons_of_neg (by simp [ho])]
        have hz : (embedChunk oracle c).2 = 0 := by simp [embedChunk, ho]
        rw [hz, Nat.zero_add]
  · intro c hc ho r hr
    rw [embedPhase_fst]
    refine List.mem_flatten.mpr ⟨(embedChunk oracle c).1, List.mem_map_of_mem _ hc, ?_⟩
    simp only [embedChunk, ho]
    exact hr
  · intro r hr
    exact foldl_upsert_any _ store r hr

/-- C7 witness: a two-row batch whose single chunk fails contributes 2
errors, leaves both rows (without embeddings) in the output, and both
are upserted. -/
theorem c7_chunked_embedding_witness :
    rowP ∈ (embedPhase failOracle [rowP, rowQ]).1 ∧
    (embedPhase failOracle [rowP, rowQ]).2 = 2 ∧
    (((embedPhase failOracle [rowP, rowQ]).1.foldl upsertNote []).any
      (·.path = rowP.path)) = true := by
  have hmem := (c7_chunked_embedding failOracle [rowP, rowQ] []).2.2.2.1 [rowP, rowQ]
    (by decide) rfl rowP (by decide)
  exact ⟨hmem, by decide,
    (c7_chunked_embedding failOracle [rowP, rowQ] []).2.2.2.2 rowP hmem⟩

theorem indexCmd_getModTime_ge (store : List NoteRow) (notes : List NoteInfo)
    (readNote : String → Option ParsedNote) (avail : Bool)
    (oracle : List String → Option (List (List ℚ)))
    (hnd : (notes.map (·.path)).Nodup)
    (hread : ∀ i ∈ notes, (readNote i.path).isSome) :
    ∀ i ∈ notes, i.modTime ≤ getModTime (indexCmd store notes readNote avail oracle).2 i.path := by
  intro i hi
  unfold indexCmd
  simp only []
  set collected := collectPhase store readNote notes with hcol
  set embedded := if avail ∧ collected.1 ≠ [] then embedPhase oracle collected.1
    else (collected.1, 0) with hemb
  set store1 := embedded.1.foldl upsertNote store with hs1
  set removed := (store1.map (·.path)).filter
    (fun p => !((notes.map (·.path)).contains p)) with hrem
  show i.modTime ≤ getModTime (removed.foldl deleteNote store1) i.path
  have hpm : embedded.1.map (fun r => (r.path, r.modTime)) =
      (notes.filter (fun j => !decide (j.modTime ≤ getModTime store j.path))).map
        (fun j => (j.path, j.modTime)) := by
    have h2 : collected.1.map (fun r => (r.path, r.modTime)) =
        (notes.filter (fun j => !decide (j.modTime ≤ getModTime store j.path))).map
          (fun j => (j.path, j.modTime)) := by
      rw [hcol]
      exact collectPhase_rows_pm store readNote notes hread
    by_cases hc : avail ∧ collected.1 ≠ []
    · rw [hemb, if_pos hc, embedPhase_pm]
      exact h2
    · rw [hemb, if_neg hc]
      exact h2
  have hpaths : embedded.1.map (·.path) =
      (notes.filter (fun j => !decide (j.modTime ≤ getModTime store j.path))).map (·.path) := by
    have h := congrArg (List.map Prod.fst) hpm
    simp only [List.map_map] at h
    exact h
  have hndrows : (embedded.1.map (·.path)).Nodup := by
    rw [hpaths]
    exact List.Nodup.sublist (List.Sublist.map _ (List.filter_sublist notes)) hnd
  have hremoved : i.path ∉ removed := by
    intro hm
    rw [hrem] at hm
    have hcond := (List.mem_filter.mp hm).2
    simp only [List.contains, List.elem_eq_mem, Bool.not_eq_true', decide_eq_false_iff_not]
      at hcond
    exact hcond (List.mem_map_of_mem (·.path) hi)
  rw [getModTime_foldl_delete removed store1 i.path hremoved, hs1]
  by_cases hskip : i.modTime ≤ getModTime store i.path
  · have hnotin : i.path ∉ embedded.1.map (·.path) := by
      rw [hpaths]
      intro hm
      obtain ⟨j, hj, hjp⟩ := List.mem_map.mp hm
      have hj' := List.mem_filter.mp hj
      have hij : j = i := List.inj_on_of_nodup_map hnd hj'.1 hi hjp
      rw [hij] at hj'
      simp [hskip] at hj'
    rw [getModTime_foldl_upsert_not_mem embedded.1 store i.path hnotin]
    exact hskip
  · have hmem : (i.path, i.modTime) ∈ embedded.1.map (fun r => (r.path, r.modTime)) := by
      rw [hpm]
      exact List.mem_map_of_mem _ (List.mem_filter.mpr ⟨hi, by simp [hskip]⟩)
    rw [getModTime_foldl_upsert_mem embedded.1 store i.path i.modTime hmem hndrows]

theorem indexCmd_counts (store : List NoteRow) (notes : List NoteInfo)
    (readNote : String → Option ParsedNote) (avail : Bool)
    (oracle : List String → Option (List (List ℚ)))
    (hread : ∀ i ∈ notes, (readNote i.path).isSome) :
    (indexCmd store notes readNote avail oracle).1.notesSkipped =
      (notes.filter (fun i => decide (i.modTime ≤ getModTime store i.path))).length ∧
    (indexCmd store notes readNote avail oracle).1.notesIndexed =
      (notes.filter (fun i => !decide (i.modTime ≤ getModTime store i.path))).length := by
  constructor
  · show (collectPhase store readNote notes).2.1 = _
    exact collectPhase_skipped store readNote notes
  · show (if avail ∧ (collectPhase store readNote notes).1 ≠ [] then
        embedPhase oracle (collectPhase store readNote notes).1
      else ((collectPhase store readNote notes).1, 0)).1.length = _
    have h2 := congrArg List.length (collectPhase_rows_pm store readNote notes hread)
    rw [List.length_map, List.length_map] at h2
    by_cases hc : avail ∧ (collectPhase store readNote notes).1 ≠ []
    · rw [if_pos hc]
      have h1 := congrArg List.length
        (embedPhase_pm oracle (collectPhase store readNote notes).1)
      rw [List.length_map, List.length_map] at h1
      rw [h1]
      exact h2
    · rw [if_neg hc]
      exact h2

/-- C2: per source document the indexer skips exactly when the stored
timestamp is at least the source timestamp (equal timestamps count as
current) and re-indexes exactly when the source timestamp is strictly
newer; re-running on the store produced by a run, with unchanged
sources, indexes zero documents and skips all of them. -/
theorem c2_incremental_index (store : List NoteRow) (notes : List NoteInfo)
    (readNote : String → Option ParsedNote) (avail : Bool)
    (oracle : List String → Option (List (List ℚ)))
    (hnd : (notes.map (·.path)).Nodup)
    (hread : ∀ i ∈ notes, (readNote i.path).isSome) :
    (indexCmd store notes readNote avail oracle).1.notesSkipped =
      (notes.filter (fun i => decide (i.modTime ≤ getModTime store i.path))).length ∧
    (indexCmd store notes readNote avail oracle).1.notesIndexed =
      (notes.filter (fun i => decide (getModTime store i.path < i.modTime))).length ∧
    (indexCmd (indexCmd store notes readNote avail oracle).2 notes readNote avail
        oracle).1.notesIndexed = 0 ∧
    (indexCmd (indexCmd store notes readNote avail oracle).2 notes readNote avail
        oracle).1.notesSkipped = notes.length := by
  have hfilter : ∀ s : List NoteRow,
      (notes.filter (fun i => !decide (i.modTime ≤ getModTime s i.path))) =
        (notes.filter (fun i => decide (getModTime s i.path < i.modTime))) := by
    intro s
    apply List.filter_congr
    intro i _
    rw [← decide_not]
    exact decide_eq_decide.mpr not_le
  have hge := indexCmd_getModTime_ge store notes readNote avail oracle hnd hread
  refine ⟨(indexCmd_counts store notes readNote avail oracle hread).1, ?_, ?_, ?_⟩
  · rw [(indexCmd_counts store notes readNote avail oracle hread).2, hfilter]
  · rw [(indexCmd_counts ((indexCmd store notes readNote avail oracle).2) notes readNote
      avail oracle hread).2]
    have hnil : (notes.filter (fun i =>
        !decide (i.modTime ≤ getModTime (indexCmd store notes readNote avail oracle).2
          i.path))) = [] := by
      rw [List.filter_eq_nil_iff]
      intro i hi
      simp [hge i hi]
    rw [hnil]
    rfl
  · rw [(indexCmd_counts ((indexCmd store notes readNote avail oracle).2) notes readNote
      avail oracle hread).1]
    have hall : (notes.filter (fun i =>
        decide (i.modTime ≤ getModTime (indexCmd store notes readNote avail oracle).2
          i.path))) = notes := by
      rw [List.filter_eq_self]
      intro i hi
      simpa using hge i hi
    rw [hall]

/-- C2 witness: one fresh note is indexed on the first run; the second
run indexes nothing and skips it. -/
theorem c2_incremental_index_witness :
    (([infoN] : List NoteInfo).map (·.path)).Nodup ∧
    (indexCmd [] [infoN] readNoteEx true failOracle).1.notesIndexed = 1 ∧
    (indexCmd (indexCmd [] [infoN] readNoteEx true failOracle).2 [infoN] readNoteEx true
      failOracle).1.notesIndexed = 0 ∧
    (indexCmd (indexCmd [] [infoN] readNoteEx true failOracle).2 [infoN] readNoteEx true
      failOracle).1.notesSkipped = 1 := by
  have h := c2_incremental_index [] [infoN] readNoteEx true failOracle (by decide) (by decide)
  refine ⟨by decide, ?_, h.2.2.1, ?_⟩
  · rw [h.2.1]
    decide
  · rw [h.2.2.2]
    decide

/-! ### Claim C10: EmbedBatch on empty input -/

/-- C10: with a configured credential, `EmbedBatch` applied to an empty
text list succeeds with no vectors, and its result does not depend on
the network oracle (no request is issued); the missing-credential check
takes precedence, so without a credential `EmbedBatch` fails on every
input, the empty list included. -/
theorem c10_embed_batch_empty (c : EmbeddingClient)
    (net net' : List String → Except GeminiError (List (List ℚ))) :
    (c.apiKey ≠ "" →
      EmbedBatch c [] net = .ok [] ∧ EmbedBatch c [] net = EmbedBatch c [] net') ∧
    (c.apiKey = "" →
      ∀ texts, EmbedBatch c texts net = .error "Gemini API key not configured") := by
  constructor
  · intro hk
    unfold EmbedBatch
    rw [if_neg hk, if_pos rfl, if_neg hk, if_pos rfl]
    exact ⟨rfl, rfl⟩
  · intro hk texts
    unfold EmbedBatch
    rw [if_pos hk]

/-- C10 witness: concrete clients with and without a key, against both a
failing and a succeeding network oracle. -/
theorem c10_embed_batch_empty_witness :
    clientEx.apiKey ≠ "" ∧
    EmbedBatch clientEx [] netErrEx = .ok [] ∧
    EmbedBatch clientEx [] netErrEx = EmbedBatch clientEx [] netOkEx ∧
    EmbedBatch noKeyClient [] netOkEx = .error "Gemini API key not configured" :=
  ⟨by decide,
   ((c10_embed_batch_empty clientEx netErrEx netOkEx).1 (by decide)).1,
   ((c10_embed_batch_empty clientEx netErrEx netOkEx).1 (by decide)).2,
   (c10_embed_batch_empty noKeyClient netOkEx netOkEx).2 rfl []⟩
